import Mathlib

/-!
Verification of the line-oriented command protocol parser of panoptes/POCS:
the fixed-capacity character buffer `CharBuffer`
(src/resources/arduino_files/shared/CharBuffer.h) and the line assembler /
two-grammar dispatcher `SerialInputHandler`
(src/resources/arduino_files/shared/serial_input_handler.h).

Modelling conventions:
* Bytes and characters are `Nat` in the range 0..255 (C `char` values reaching
  the parser are always in 32..126 because only printable bytes are stored).
* The C backing array `char buf_[kBufferSize]` is modelled by the list of
  characters written so far (`buf`), so `write_cursor_` is `buf.length`.
  All defined-behaviour reads of the array are at indices below
  `write_cursor_` (every `Next`/`Peek` in the parsing code is guarded by
  `Empty`), so the stale bytes at and beyond `write_cursor_` are
  unobservable and need not be carried.
* The `uint16_t` accumulator of `ParseUInt8` is modelled with an explicit
  `% 65536`; cursor arithmetic is exact `Nat` arithmetic because every
  increment in the source is guarded (`write_cursor_ < kBufferSize`,
  `read_cursor_ < write_cursor_` with `kBufferSize` a `uint8_t`), so no
  `uint8_t` wraparound is reachable.
* The Arduino `Serial` byte source is modelled as the list of bytes still
  unread; `Serial && Serial.available() > 0` is nonemptiness of that list.
* The two handler callbacks and the `LineNotMatched` diagnostic are
  modelled as an emitted list of `Event`s.
-/

namespace POCS

/-- ctype.h `isdigit` on the ASCII range. -/
def isdigit (c : Nat) : Bool := decide (48 ≤ c ∧ c ≤ 57)

/-- ctype.h `islower` on the ASCII range. -/
def islower (c : Nat) : Bool := decide (97 ≤ c ∧ c ≤ 122)

/-- ctype.h `isprint` on the ASCII range: 0x20 (space) through 0x7e. -/
def isprint (c : Nat) : Bool := decide (32 ≤ c ∧ c ≤ 126)

/-- ctype.h `isblank`: space or horizontal tab. -/
def isblank (c : Nat) : Bool := decide (c = 32 ∨ c = 9)

/-- `CharBuffer<kBufferSize>`: fixed-capacity character store with a read
cursor.  `buf` is the written prefix of the backing array, so the source's
`write_cursor_` is `buf.length`. -/
structure CharBuffer where
  kBufferSize : Nat
  buf : List Nat
  read_cursor : Nat
deriving DecidableEq

namespace CharBuffer

/-- `write_cursor_` of the source: number of characters stored. -/
def write_cursor (cb : CharBuffer) : Nat := cb.buf.length

/-- `Reset()`: `write_cursor_ = read_cursor_ = 0;`. -/
def Reset (cb : CharBuffer) : CharBuffer := { cb with buf := [], read_cursor := 0 }

/-- The constructor `CharBuffer()` calls `Reset()`. -/
def mkEmpty (n : Nat) : CharBuffer := { kBufferSize := n, buf := [], read_cursor := 0 }

/-- `Append(c)`: stores `c` at `write_cursor_` and increments it if
`write_cursor_ < kBufferSize`, returning whether there was room. -/
def Append (cb : CharBuffer) (c : Nat) : Bool × CharBuffer :=
  if cb.write_cursor < cb.kBufferSize then
    (true, { cb with buf := cb.buf ++ [c] })
  else
    (false, cb)

/-- `Empty()`: `read_cursor_ >= write_cursor_`. -/
def Empty (cb : CharBuffer) : Bool := decide (cb.write_cursor ≤ cb.read_cursor)

/-- `Peek()`: `buf_[read_cursor_]`. -/
def Peek (cb : CharBuffer) : Nat := cb.buf.getD cb.read_cursor 0

/-- `Next()`: `buf_[read_cursor_++]`; returns the character and the
advanced buffer. -/
def Next (cb : CharBuffer) : Nat × CharBuffer :=
  (cb.Peek, { cb with read_cursor := cb.read_cursor + 1 })

/-- The unread content of the buffer: `buf_[read_cursor_..write_cursor_)`. -/
def unread (cb : CharBuffer) : List Nat := cb.buf.drop cb.read_cursor

/-- Advancing the read cursor by `k`. -/
def advance (cb : CharBuffer) (k : Nat) : CharBuffer :=
  { cb with read_cursor := cb.read_cursor + k }

/-- The loop of `ParseUInt8`:
`while (!Empty() && isdigit(Peek())) { char c = Next(); v = v*10 + c - '0'; ++len; if (len > 3) return false; }`
followed by the final `len == 0 || v > 255` check.  The loop body returns as
soon as `len` reaches 4, so the loop runs at most four iterations; it is
therefore translated with a structural fuel of 4 (the fuel-0 branch repeats
the loop-exit check and is unreachable from `ParseUInt8`).  The `uint16_t`
store into `v` is the explicit `% 65536`. -/
def parseUInt8Go : Nat → CharBuffer → Nat → Nat → Option Nat × CharBuffer
  | 0, cb, v, len =>
      if len = 0 || decide (255 < v) then (none, cb) else (some v, cb)
  | fuel + 1, cb, v, len =>
      if !cb.Empty && isdigit cb.Peek then
        let c := (cb.Next).1
        let cb1 := (cb.Next).2
        let v1 := (v * 10 + (c - 48)) % 65536
        let len1 := len + 1
        if decide (3 < len1) then (none, cb1)
        else parseUInt8Go fuel cb1 v1 len1
      else
        if len = 0 || decide (255 < v) then (none, cb) else (some v, cb)

/-- `ParseUInt8(uint8_t* output)`: parses a non-negative integer at
`read_cursor_`; `some v` models `return true` with `*output = v`. -/
def ParseUInt8 (cb : CharBuffer) : Option Nat × CharBuffer :=
  parseUInt8Go 4 cb 0 0

/-- Same loop with the `uint16_t` store modelled without the `% 65536`
reduction; used to prove that the accumulator never wraps. -/
def parseUInt8GoNoMod : Nat → CharBuffer → Nat → Nat → Option Nat × CharBuffer
  | 0, cb, v, len =>
      if len = 0 || decide (255 < v) then (none, cb) else (some v, cb)
  | fuel + 1, cb, v, len =>
      if !cb.Empty && isdigit cb.Peek then
        let c := (cb.Next).1
        let cb1 := (cb.Next).2
        let v1 := v * 10 + (c - 48)
        let len1 := len + 1
        if decide (3 < len1) then (none, cb1)
        else parseUInt8GoNoMod fuel cb1 v1 len1
      else
        if len = 0 || decide (255 < v) then (none, cb) else (some v, cb)

/-- `ParseUInt8` with the unreduced accumulator. -/
def ParseUInt8NoMod (cb : CharBuffer) : Option Nat × CharBuffer :=
  parseUInt8GoNoMod 4 cb 0 0

/-- Ghost instrumentation of the `ParseUInt8` loop: the list of successive
values assigned to the accumulator `v`, mirroring `parseUInt8Go` step for
step. -/
def parseUInt8GoTrace : Nat → CharBuffer → Nat → Nat → List Nat
  | 0, _, _, _ => []
  | fuel + 1, cb, v, len =>
      if !cb.Empty && isdigit cb.Peek then
        let c := (cb.Next).1
        let cb1 := (cb.Next).2
        let v1 := (v * 10 + (c - 48)) % 65536
        let len1 := len + 1
        if decide (3 < len1) then [v1]
        else v1 :: parseUInt8GoTrace fuel cb1 v1 len1
      else []

/-- All values taken by the `uint16_t` accumulator of `ParseUInt8`,
including its initialisation to 0. -/
def parseUInt8Trace (cb : CharBuffer) : List Nat :=
  0 :: parseUInt8GoTrace 4 cb 0 0

/-- Identifier continuation characters of `ParseName`:
`islower(c) || isdigit(c) || c == '_'`. -/
def identChar (c : Nat) : Bool := islower c || isdigit c || decide (c = 95)

/-- The loop of `ParseName`: consume identifier characters while available.
The loop advances `read_cursor_` once per iteration while `!Empty()`, so the
remaining unread count `write_cursor_ - read_cursor_` is exact fuel. -/
def parseNameGo : Nat → CharBuffer → Nat → Nat × CharBuffer
  | 0, cb, len => (len, cb)
  | fuel + 1, cb, len =>
      if !cb.Empty then
        let c := cb.Peek
        if identChar c then
          parseNameGo fuel (cb.Next).2 (len + 1)
        else (len, cb)
      else (len, cb)

/-- `ParseName(char** name, uint8_t* name_len)`: succeeds if the next
character is a lowercase letter; returns the start offset into `buf_` and
the length of the identifier (the source returns `buf_ + read_cursor_` as a
pointer; the offset is the same information). -/
def ParseName (cb : CharBuffer) : Option (Nat × Nat) × CharBuffer :=
  if cb.Empty || !islower cb.Peek then (none, cb)
  else
    let start := cb.read_cursor
    let cb1 := (cb.Next).2
    let r := parseNameGo (cb1.write_cursor - cb1.read_cursor) cb1 1
    (some (start, r.1), r.2)

/-- `MatchAndConsume(char c)`: consume the next character iff it equals `c`. -/
def MatchAndConsume (cb : CharBuffer) (c : Nat) : Bool × CharBuffer :=
  if cb.Empty || !(cb.Peek == c) then (false, cb)
  else (true, (cb.Next).2)

end CharBuffer

/-- One observable effect of processing a complete line: a call of the
`num_num_fn_` callback, a call of the `name_num_fn_` callback (carrying the
`name_len` characters starting at the returned offset), or a
`LineNotMatched(reason)` diagnostic. -/
inductive Event where
  | numNum (pin_num : Nat) (pin_status : Nat)
  | nameNum (name : List Nat) (pin_status : Nat)
  | lineNotMatched (reason : Nat)
deriving DecidableEq

/-- `SerialInputHandler<kBufferSize>` state: the embedded buffer and the two
flags.  The callbacks are modelled by the emitted `Event` list. -/
structure SerialInputHandler where
  input_buffer : CharBuffer
  has_line : Bool
  wait_for_new_line : Bool
deriving DecidableEq

namespace SerialInputHandler

/-- Freshly constructed handler with buffer capacity `n`:
both flags initialised `false`, buffer reset. -/
def init (n : Nat) : SerialInputHandler :=
  { input_buffer := CharBuffer.mkEmpty n, has_line := false, wait_for_new_line := false }

/-- `IsNewLine(int c)`: `c == '\n' || c == '\r'`. -/
def IsNewLine (c : Nat) : Bool := decide (c = 10 ∨ c = 13)

/-- The `while (Serial && Serial.available() > 0)` loop of `AccumulateLine`,
over the list of bytes the serial source still holds.  Returns whether a
complete line is ready, the new state, and the bytes left unread. -/
def accumGo : SerialInputHandler → List Nat → Bool × SerialInputHandler × List Nat
  | s, [] => (false, s, [])
  | s, c :: rest =>
      if s.wait_for_new_line then
        if IsNewLine c then
          accumGo { s with wait_for_new_line := false,
                           input_buffer := s.input_buffer.Reset } rest
        else accumGo s rest
      else if IsNewLine c then
        if !s.input_buffer.Empty then
          (true, { s with has_line := true }, rest)
        else accumGo s rest
      else if isblank c then accumGo s rest
      else if isprint c then
        if (s.input_buffer.Append c).1 then
          accumGo { s with input_buffer := (s.input_buffer.Append c).2 } rest
        else accumGo { s with wait_for_new_line := true } rest
      else
        if s.input_buffer.Empty then accumGo s rest
        else accumGo { s with wait_for_new_line := true } rest

/-- The state with the buffer content replaced (capacity and cursors kept);
used to describe the effect of accumulating characters. -/
def setBuf (s : SerialInputHandler) (l : List Nat) : SerialInputHandler :=
  { s with input_buffer := { s.input_buffer with buf := l } }

/-- The state reached when a line terminator ends a resync:
`wait_for_new_line_ = false; input_buffer_.Reset();`. -/
def resetState (s : SerialInputHandler) : SerialInputHandler :=
  { s with wait_for_new_line := false, input_buffer := s.input_buffer.Reset }

/-- `AccumulateLine()`: returns `true` immediately when a line is already
buffered, else drains the source. -/
def AccumulateLine (s : SerialInputHandler) (input : List Nat) :
    Bool × SerialInputHandler × List Nat :=
  if s.has_line then (true, s, input) else accumGo s input

/-- The rest of the Grammar-A attempt of `Handle()` once `ParseUInt8`
succeeded with `pin_num`: `MatchAndConsume(',') && ParseUInt8(&pin_status)
&& input_buffer_.Empty()`, short-circuiting, with `LineNotMatched(1)` on
failure. -/
def dispatchNum (pin_num : Nat) (cb1 : CharBuffer) : Event :=
  match cb1.MatchAndConsume 44 with
  | (true, cb2) =>
      match cb2.ParseUInt8 with
      | (some pin_status, cb3) =>
          if cb3.Empty then Event.numNum pin_num pin_status
          else Event.lineNotMatched 1
      | (none, _) => Event.lineNotMatched 1
  | (false, _) => Event.lineNotMatched 1

/-- The Grammar-B attempt of `Handle()` reached when `ParseUInt8` failed:
`ParseName` then `MatchAndConsume('=') && ParseUInt8(&pin_status) &&
input_buffer_.Empty()`, with `LineNotMatched(2)` on partial match and
`LineNotMatched(0)` if `ParseName` fails.  `cb` is the buffer whose
storage the returned name view points into (unchanged by parsing, which
only moves the read cursor). -/
def dispatchName (cb cb1 : CharBuffer) : Event :=
  match cb1.ParseName with
  | (some (start, name_len), cb2) =>
      match cb2.MatchAndConsume 61 with
      | (true, cb3) =>
          match cb3.ParseUInt8 with
          | (some pin_status, cb4) =>
              if cb4.Empty then
                Event.nameNum ((cb.buf.drop start).take name_len) pin_status
              else Event.lineNotMatched 2
          | (none, _) => Event.lineNotMatched 2
      | (false, _) => Event.lineNotMatched 2
  | (none, _) => Event.lineNotMatched 0

/-- The body of `Handle()` that runs once `AccumulateLine` returned `true`:
try Grammar A (`ParseUInt8`, `','`, `ParseUInt8`, `Empty`), else
`ParseName`, `'='`, `ParseUInt8`, `Empty`, reporting `LineNotMatched`
with reason 1, 2 or 0 exactly as the source does (the two straight-line
halves of the source body are the two functions above). -/
def dispatch (cb : CharBuffer) : Event :=
  match cb.ParseUInt8 with
  | (some pin_num, cb1) => dispatchNum pin_num cb1
  | (none, cb1) => dispatchName cb cb1

/-- The `while (AccumulateLine())` loop of `Handle()`: clear both flags,
dispatch the buffered line, `Reset` the buffer, continue.  Each `true`
return of `AccumulateLine` either consumes at least the terminator byte or
clears a pending `has_line_`, so `input.length + 2` is sufficient fuel; the
fuel-0 branch is unreachable from `Handle` (see `handleGo_fuel`). -/
def handleGo : Nat → SerialInputHandler → List Nat →
    SerialInputHandler × List Nat × List Event
  | 0, s, input => (s, input, [])
  | fuel + 1, s, input =>
      match s.AccumulateLine input with
      | (false, s1, input1) => (s1, input1, [])
      | (true, s1, input1) =>
          let s2 := { s1 with wait_for_new_line := false, has_line := false }
          let ev := dispatch s2.input_buffer
          let s3 := { s2 with input_buffer := s2.input_buffer.Reset }
          let r := handleGo fuel s3 input1
          (r.1, r.2.1, ev :: r.2.2)

/-- `Handle()`: process every immediately-available byte, dispatching each
completed line. -/
def Handle (s : SerialInputHandler) (input : List Nat) :
    SerialInputHandler × List Nat × List Event :=
  handleGo (input.length + 2) s input

/-- States of the handler reachable from the freshly constructed handler by
any sequence of byte-draining (`AccumulateLine`) and line-dispatching
(`Handle`) steps, each fed an arbitrary list of available input bytes. -/
inductive Reachable (n : Nat) : SerialInputHandler → Prop
  | init : Reachable n (init n)
  | accumulate (s : SerialInputHandler) (input : List Nat) :
      Reachable n s → Reachable n (s.AccumulateLine input).2.1
  | handle (s : SerialInputHandler) (input : List Nat) :
      Reachable n s → Reachable n (s.Handle input).1

end SerialInputHandler

/-! ### Specification-side grammar

These definitions follow the spec's ABNF (section 6):
`uint8 = 1*3DIGIT` with value in [0,255], `ident = LCALPHA *(LCALPHA /
DIGIT / "_")`, `num-pair = uint8 "," uint8`, `name-pair = ident "=" uint8`.
They are the comparison point for the dispatcher, not a translation of the
source. -/

/-- Base-10 value of a digit string (ASCII codes). -/
def digitsVal (l : List Nat) : Nat :=
  l.foldl (fun v c => v * 10 + (c - 48)) 0

/-- Spec `uint8`: one to three decimal digits whose value is at most 255. -/
def specUInt8 (l : List Nat) : Option Nat :=
  if l ≠ [] ∧ l.length ≤ 3 ∧ l.all isdigit ∧ digitsVal l ≤ 255 then
    some (digitsVal l)
  else none

/-- Spec Grammar A, `num-pair = uint8 "," uint8`, matched against a whole
line.  The digit run before the comma is maximal, which coincides with the
unique grammar decomposition because `','` is not a digit. -/
def specGrammarA (l : List Nat) : Option (Nat × Nat) :=
  match l.drop (l.takeWhile isdigit).length, specUInt8 (l.takeWhile isdigit) with
  | d :: b, some x =>
      if d = 44 then
        match specUInt8 b with
        | some y => some (x, y)
        | none => none
      else none
  | _, _ => none

/-- Spec Grammar B, `name-pair = ident "=" uint8`, matched against a whole
line.  The identifier run is maximal, which coincides with the unique
grammar decomposition because `'='` is not an identifier character. -/
def specGrammarB (l : List Nat) : Option (List Nat × Nat) :=
  match l with
  | [] => none
  | c :: _ =>
      if islower c then
        match l.drop (l.takeWhile POCS.CharBuffer.identChar).length with
        | d :: b =>
            if d = 61 then
              match specUInt8 b with
              | some y => some (l.takeWhile POCS.CharBuffer.identChar, y)
              | none => none
            else none
        | [] => none
      else none

/-- The line content after discarding horizontal whitespace, as the
assembler stores it. -/
def strip (l : List Nat) : List Nat := l.filter (fun c => !isblank c)

/-- ASCII codes of a string, for readable concrete inputs. -/
def bytes (s : String) : List Nat := s.data.map Char.toNat

/-- The cursor invariant of the buffer:
`0 ≤ read_cursor ≤ write_cursor ≤ kBufferSize` (the lower bound is inherent
to `Nat`). -/
def cursorInv (cb : CharBuffer) : Prop :=
  cb.read_cursor ≤ cb.write_cursor ∧ cb.write_cursor ≤ cb.kBufferSize

end POCS

/-! ### Basic lemmas about the buffer primitives -/

namespace POCS

namespace CharBuffer

theorem empty_true_iff (cb : CharBuffer) : cb.Empty = true ↔ cb.unread = [] := by
  simp [Empty, unread, write_cursor, List.drop_eq_nil_iff]

theorem empty_false_of_unread (cb : CharBuffer) (c : Nat) (t : List Nat)
    (h : cb.unread = c :: t) : cb.Empty = false := by
  cases he : cb.Empty with
  | false => rfl
  | true => rw [(empty_true_iff cb).mp he] at h; exact absurd h (by simp)

theorem list_getD_of_drop : ∀ (l : List Nat) (n : Nat) (c : Nat) (t : List Nat),
    l.drop n = c :: t → l.getD n 0 = c
  | [], n, _, _, h => by simp at h
  | x :: xs, 0, c, t, h => by
      simp only [List.drop_zero] at h
      cases h; rfl
  | x :: xs, n + 1, c, t, h => by
      simp only [List.drop_succ_cons] at h
      simpa using list_getD_of_drop xs n c t h

theorem peek_of_unread (cb : CharBuffer) (c : Nat) (t : List Nat)
    (h : cb.unread = c :: t) : cb.Peek = c :=
  list_getD_of_drop cb.buf cb.read_cursor c t h

theorem unread_advance (cb : CharBuffer) (k : Nat) :
    (cb.advance k).unread = cb.unread.drop k := by
  simp [advance, unread, List.drop_drop]

theorem unread_advance_one (cb : CharBuffer) (c : Nat) (t : List Nat)
    (h : cb.unread = c :: t) : (cb.advance 1).unread = t := by
  rw [unread_advance, h]; rfl

theorem advance_zero (cb : CharBuffer) : cb.advance 0 = cb := rfl

theorem advance_advance (cb : CharBuffer) (a b : Nat) :
    (cb.advance a).advance b = cb.advance (a + b) := by
  simp [advance, Nat.add_assoc]

theorem next_snd (cb : CharBuffer) : (cb.Next).2 = cb.advance 1 := rfl

theorem unread_length (cb : CharBuffer) :
    cb.unread.length = cb.write_cursor - cb.read_cursor := by
  simp [unread, write_cursor]

theorem advance_fields (cb : CharBuffer) (k : Nat) :
    (cb.advance k).buf = cb.buf ∧ (cb.advance k).kBufferSize = cb.kBufferSize ∧
      (cb.advance k).read_cursor = cb.read_cursor + k := ⟨rfl, rfl, rfl⟩

end CharBuffer

theorem takeWhile_all_append (p : Nat → Bool) :
    ∀ (a x : List Nat), (∀ c ∈ a, p c = true) →
      (a ++ x).takeWhile p = a ++ x.takeWhile p
  | [], x, _ => by simp
  | c :: a, x, ha => by
      have hc : p c = true := ha c (by simp)
      simp only [List.cons_append, List.takeWhile_cons_of_pos hc]
      rw [takeWhile_all_append p a x (fun d hd => ha d (by simp [hd]))]

theorem digitsVal_foldl (l : List Nat) :
    ∀ v : Nat, l.foldl (fun v c => v * 10 + (c - 48)) v =
      v * 10 ^ l.length + digitsVal l := by
  induction l with
  | nil => intro v; simp [digitsVal]
  | cons c t ih =>
      intro v
      have h0 : digitsVal (c :: t) = (c - 48) * 10 ^ t.length + digitsVal t := by
        show (c :: t).foldl (fun v c => v * 10 + (c - 48)) 0 = _
        simp only [List.foldl_cons]
        rw [ih (0 * 10 + (c - 48))]
        ring
      simp only [List.foldl_cons, h0]
      rw [ih (v * 10 + (c - 48))]
      simp only [List.length_cons]
      ring

theorem digitsVal_cons (c : Nat) (t : List Nat) :
    digitsVal (c :: t) = (c - 48) * 10 ^ t.length + digitsVal t := by
  show (c :: t).foldl (fun v c => v * 10 + (c - 48)) 0 = _
  simp only [List.foldl_cons]
  rw [digitsVal_foldl t (0 * 10 + (c - 48))]
  ring

end POCS

/-! ### Characterization of `ParseUInt8` -/

namespace POCS

namespace CharBuffer

/-- Full characterisation of the `ParseUInt8` loop, for the accumulator
invariant `v < 10 ^ len` that holds from the initial call (`v = 0`,
`len = 0`). -/
theorem parseUInt8Go_spec :
    ∀ (fuel : Nat) (cb : CharBuffer) (v len : Nat),
      len + fuel = 4 → len ≤ 3 → v < 10 ^ len →
      parseUInt8Go fuel cb v len =
        (if len + (cb.unread.takeWhile isdigit).length ≤ 3 then
          (if len + (cb.unread.takeWhile isdigit).length = 0 ∨
              255 < v * 10 ^ (cb.unread.takeWhile isdigit).length +
                digitsVal (cb.unread.takeWhile isdigit) then none
           else some (v * 10 ^ (cb.unread.takeWhile isdigit).length +
                digitsVal (cb.unread.takeWhile isdigit)),
           cb.advance (cb.unread.takeWhile isdigit).length)
         else (none, cb.advance (4 - len))) := by
  intro fuel
  induction fuel with
  | zero => intro cb v len hf hl hv; omega
  | succ fuel ih =>
    intro cb v len hf hl hv
    cases hu : cb.unread with
    | nil =>
      have he : cb.Empty = true := (empty_true_iff cb).mpr hu
      simp [parseUInt8Go, he, digitsVal, advance_zero]
      split_ifs <;> simp_all
    | cons c t =>
      have he : cb.Empty = false := empty_false_of_unread cb c t hu
      have hp : cb.Peek = c := peek_of_unread cb c t hu
      have hn1 : (cb.Next).1 = c := hp
      by_cases hd : isdigit c
      · -- loop iteration: consume the digit `c`
        have hc9 : c - 48 ≤ 9 := by
          simp [isdigit] at hd; omega
        have hmod : (v * 10 + (c - 48)) % 65536 = v * 10 + (c - 48) := by
          apply Nat.mod_eq_of_lt
          have h10 : (10:Nat) ^ len ≤ 10 ^ 3 := Nat.pow_le_pow_right (by omega) hl
          have : v < 1000 := by
            have h1000 : (10:Nat) ^ 3 = 1000 := by norm_num
            omega
          omega
        have hrun : List.takeWhile isdigit (c :: t) = c :: List.takeWhile isdigit t :=
          List.takeWhile_cons_of_pos hd
        have hu1 : ((cb.Next).2).unread = t := by
          rw [next_snd]; exact unread_advance_one cb c t hu
        rcases Nat.lt_or_ge len 3 with hlt | hge
        · -- len < 3: recurse
          have hstep := ih (cb.Next).2 (v * 10 + (c - 48)) (len + 1)
            (by omega) (by omega)
            (by
              have h1 : v * 10 + (c - 48) < 10 ^ len * 10 := by omega
              have h2 : (10:Nat) ^ len * 10 = 10 ^ (len + 1) := by ring
              omega)
          rw [hu1] at hstep
          rw [parseUInt8Go]
          rw [he, hn1]
          simp only [Bool.not_false, Bool.true_and, hd, if_pos]
          have h31 : ¬ (3 < len + 1) := by omega
          simp only [decide_eq_true_eq, h31, if_neg, not_false_iff, hmod]
          rw [hstep, hrun]
          have hlen : (c :: t.takeWhile isdigit).length = (t.takeWhile isdigit).length + 1 := by
            simp
          set k := (t.takeWhile isdigit).length with hk
          have hadv : ((cb.Next).2).advance k = cb.advance (k + 1) := by
            rw [next_snd, advance_advance, Nat.add_comm]
          have hadv2 : ((cb.Next).2).advance (4 - (len + 1)) = cb.advance (4 - len) := by
            rw [next_snd, advance_advance]
            congr 1
            omega
          have hval : (v * 10 + (c - 48)) * 10 ^ k + digitsVal (t.takeWhile isdigit) =
              v * 10 ^ (k + 1) + digitsVal (c :: t.takeWhile isdigit) := by
            rw [digitsVal_cons]
            ring
          rw [hadv, hadv2, hlen, hval]
          have harith : len + 1 + k = len + (k + 1) := by omega
          rw [harith, hp, if_pos hd]
        · -- len = 3: fourth digit, report failure
          rw [parseUInt8Go]
          rw [he, hn1]
          simp only [Bool.not_false, Bool.true_and, hd, if_pos]
          have h31 : (3 : Nat) < len + 1 := by omega
          simp only [decide_eq_true_eq, h31, if_pos]
          rw [hrun]
          have hgt : ¬ (len + (c :: t.takeWhile isdigit).length ≤ 3) := by
            simp; omega
          rw [if_neg hgt]
          rw [next_snd]
          have h41 : (4 : Nat) - len = 1 := by omega
          rw [h41, hp, if_pos hd]
      · -- Peek is not a digit: loop exit
        have hrun : List.takeWhile isdigit (c :: t) = [] :=
          List.takeWhile_cons_of_neg hd
        have hdf : isdigit c = false := by
          cases hx : isdigit c with
          | false => rfl
          | true => exact absurd hx hd
        rw [parseUInt8Go]
        rw [he, hp]
        simp only [hdf, Bool.and_false, Bool.false_eq_true, if_neg, not_false_iff]
        rw [hrun]
        simp only [List.length_nil, Nat.add_zero, digitsVal, List.foldl_nil,
          Nat.pow_zero, Nat.mul_one, advance_zero]
        rw [if_pos hl]
        split_ifs <;> simp_all

end CharBuffer

end POCS

namespace POCS

namespace CharBuffer

/-- `ParseUInt8` in terms of the maximal digit run at the read cursor:
no digits fails in place; one to three digits succeed iff the value is at
most 255, consuming the run; four or more digits fail after consuming
exactly four. -/
theorem parseUInt8_spec (cb : CharBuffer) :
    cb.ParseUInt8 =
      (if (cb.unread.takeWhile isdigit).length = 0 then (none, cb)
       else if (cb.unread.takeWhile isdigit).length ≤ 3 then
         (if 255 < digitsVal (cb.unread.takeWhile isdigit) then none
          else some (digitsVal (cb.unread.takeWhile isdigit)),
          cb.advance (cb.unread.takeWhile isdigit).length)
       else (none, cb.advance 4)) := by
  have h := parseUInt8Go_spec 4 cb 0 0 rfl (by omega) (by norm_num)
  rw [ParseUInt8, h]
  simp only [Nat.zero_add, Nat.zero_mul, Nat.sub_zero]
  by_cases h0 : (cb.unread.takeWhile isdigit).length = 0
  · rw [h0]
    norm_num [advance_zero]
  · by_cases h3 : (cb.unread.takeWhile isdigit).length ≤ 3
    · rw [if_pos h3, if_neg h0, if_pos h3]
      congr 1
      simp [h0]
    · rw [if_neg h3, if_neg h0, if_neg h3]

/-- The `% 65536` store into the `uint16_t` accumulator never truncates:
the loop computes the same results with an unbounded accumulator. -/
theorem parseUInt8Go_noMod :
    ∀ (fuel : Nat) (cb : CharBuffer) (v len : Nat),
      len ≤ 3 → v < 10 ^ len →
      parseUInt8Go fuel cb v len = parseUInt8GoNoMod fuel cb v len := by
  intro fuel
  induction fuel with
  | zero => intro cb v len _ _; rfl
  | succ fuel ih =>
    intro cb v len hl hv
    rw [parseUInt8Go, parseUInt8GoNoMod]
    by_cases hc : (!cb.Empty && isdigit cb.Peek) = true
    · rw [if_pos hc, if_pos hc]
      have hd : isdigit cb.Peek = true := (Bool.and_eq_true _ _).mp hc |>.2
      have hc9 : cb.Peek - 48 ≤ 9 := by
        simp [isdigit] at hd; omega
      have hvb : v ≤ 999 := by
        have h10 : (10:Nat) ^ len ≤ 10 ^ 3 := Nat.pow_le_pow_right (by omega) hl
        have h1000 : (10:Nat) ^ 3 = 1000 := by norm_num
        omega
      have hmod : (v * 10 + ((cb.Next).1 - 48)) % 65536 =
          v * 10 + ((cb.Next).1 - 48) := by
        have hpk : (cb.Next).1 = cb.Peek := rfl
        rw [hpk]
        apply Nat.mod_eq_of_lt
        omega
      simp only [hmod]
      by_cases h3 : decide (3 < len + 1) = true
      · rw [if_pos h3, if_pos h3]
      · rw [if_neg h3, if_neg h3]
        apply ih
        · simp at h3; omega
        · have hpk : (cb.Next).1 = cb.Peek := rfl
          rw [hpk]
          have h2 : (10:Nat) ^ len * 10 = 10 ^ (len + 1) := by ring
          omega
    · rw [if_neg hc, if_neg hc]

/-- `ParseUInt8` computes exactly what it would with an unbounded
accumulator. -/
theorem parseUInt8_eq_noMod (cb : CharBuffer) : cb.ParseUInt8 = cb.ParseUInt8NoMod :=
  parseUInt8Go_noMod 4 cb 0 0 (by omega) (by norm_num)

/-- Every value the accumulator takes during the loop is at most 9999. -/
theorem parseUInt8GoTrace_bound :
    ∀ (fuel : Nat) (cb : CharBuffer) (v len : Nat),
      len ≤ 3 → v < 10 ^ len →
      ∀ x ∈ parseUInt8GoTrace fuel cb v len, x ≤ 9999 := by
  intro fuel
  induction fuel with
  | zero => intro cb v len _ _ x hx; simp [parseUInt8GoTrace] at hx
  | succ fuel ih =>
    intro cb v len hl hv x hx
    rw [parseUInt8GoTrace] at hx
    by_cases hc : (!cb.Empty && isdigit cb.Peek) = true
    · rw [if_pos hc] at hx
      have hd : isdigit cb.Peek = true := (Bool.and_eq_true _ _).mp hc |>.2
      have hc9 : cb.Peek - 48 ≤ 9 := by
        simp [isdigit] at hd; omega
      have hvb : v ≤ 999 := by
        have h10 : (10:Nat) ^ len ≤ 10 ^ 3 := Nat.pow_le_pow_right (by omega) hl
        have h1000 : (10:Nat) ^ 3 = 1000 := by norm_num
        omega
      have hpk : (cb.Next).1 = cb.Peek := rfl
      have hmod : (v * 10 + (cb.Peek - 48)) % 65536 =
          v * 10 + (cb.Peek - 48) := by
        apply Nat.mod_eq_of_lt
        omega
      simp only [hpk, hmod] at hx
      by_cases h3 : decide (3 < len + 1) = true
      · rw [if_pos h3] at hx
        simp at hx
        rw [hx]
        omega
      · rw [if_neg h3] at hx
        rcases List.mem_cons.mp hx with hx1 | hx2
        · rw [hx1]
          omega
        · refine ih (cb.Next).2 _ (len + 1) ?_ ?_ x hx2
          · simp at h3; omega
          · have h2 : (10:Nat) ^ len * 10 = 10 ^ (len + 1) := by ring
            omega
    · rw [if_neg hc] at hx
      simp at hx

/-- Every value of the `ParseUInt8` accumulator, the initial 0 included,
stays at most 9999 and in particular below 2^16. -/
theorem parseUInt8Trace_bound (cb : CharBuffer) :
    ∀ x ∈ cb.parseUInt8Trace, x ≤ 9999 := by
  intro x hx
  rcases List.mem_cons.mp hx with hx1 | hx2
  · omega
  · exact parseUInt8GoTrace_bound 4 cb 0 0 (by omega) (by norm_num) x hx2

theorem lt_of_unread_cons (cb : CharBuffer) (c : Nat) (t : List Nat)
    (h : cb.unread = c :: t) : cb.read_cursor < cb.write_cursor := by
  have hl := congrArg List.length h
  rw [unread_length] at hl
  simp at hl
  omega

/-- Characterisation of the `ParseName` loop: it consumes exactly the
maximal run of identifier characters. -/
theorem parseNameGo_spec :
    ∀ (fuel : Nat) (cb : CharBuffer) (len : Nat),
      cb.write_cursor - cb.read_cursor = fuel →
      parseNameGo fuel cb len =
        (len + (cb.unread.takeWhile identChar).length,
         cb.advance (cb.unread.takeWhile identChar).length) := by
  intro fuel
  induction fuel with
  | zero =>
    intro cb len hf
    have hu : cb.unread = [] := by
      rw [unread, List.drop_eq_nil_iff]
      rw [write_cursor] at hf
      omega
    simp [parseNameGo, hu, advance_zero]
  | succ fuel ih =>
    intro cb len hf
    cases hu : cb.unread with
    | nil =>
      have he : cb.Empty = true := (empty_true_iff cb).mpr hu
      simp [parseNameGo, he, advance_zero]
    | cons c t =>
      have he : cb.Empty = false := empty_false_of_unread cb c t hu
      have hp : cb.Peek = c := peek_of_unread cb c t hu
      have hlt : cb.read_cursor < cb.write_cursor := lt_of_unread_cons cb c t hu
      rw [parseNameGo, he, hp]
      simp only [Bool.not_false, if_pos]
      by_cases hid : identChar c
      · rw [if_pos hid]
        have hu1 : ((cb.Next).2).unread = t := by
          rw [next_snd]; exact unread_advance_one cb c t hu
        have hf1 : ((cb.Next).2).write_cursor - ((cb.Next).2).read_cursor = fuel := by
          show cb.write_cursor - (cb.read_cursor + 1) = fuel
          omega
        rw [ih (cb.Next).2 (len + 1) hf1, hu1]
        rw [List.takeWhile_cons_of_pos hid]
        simp only [List.length_cons]
        have hadv : ((cb.Next).2).advance ((t.takeWhile identChar).length) =
            cb.advance ((t.takeWhile identChar).length + 1) := by
          rw [next_snd, advance_advance, Nat.add_comm]
        have harith : len + 1 + (t.takeWhile identChar).length =
            len + ((t.takeWhile identChar).length + 1) := by omega
        rw [hadv, harith]
      · rw [if_neg hid, List.takeWhile_cons_of_neg hid]
        simp [advance_zero]

end CharBuffer

end POCS

namespace POCS

namespace CharBuffer

theorem parseName_none_nil (cb : CharBuffer) (h : cb.unread = []) :
    cb.ParseName = (none, cb) := by
  have he : cb.Empty = true := (empty_true_iff cb).mpr h
  rw [ParseName, he]
  simp

theorem parseName_none_notLower (cb : CharBuffer) (c : Nat) (t : List Nat)
    (h : cb.unread = c :: t) (hl : islower c = false) :
    cb.ParseName = (none, cb) := by
  have he : cb.Empty = false := empty_false_of_unread cb c t h
  have hp : cb.Peek = c := peek_of_unread cb c t h
  rw [ParseName, he, hp, hl]
  simp

/-- `ParseName` on a lowercase head: returns the current offset and the
length of the maximal identifier run, consuming it. -/
theorem parseName_some (cb : CharBuffer) (c : Nat) (t : List Nat)
    (h : cb.unread = c :: t) (hl : islower c = true) :
    cb.ParseName =
      (some (cb.read_cursor, 1 + (t.takeWhile identChar).length),
       cb.advance (1 + (t.takeWhile identChar).length)) := by
  have he : cb.Empty = false := empty_false_of_unread cb c t h
  have hp : cb.Peek = c := peek_of_unread cb c t h
  have hu1 : ((cb.Next).2).unread = t := by
    rw [next_snd]; exact unread_advance_one cb c t h
  rw [ParseName, he, hp, hl]
  simp only [Bool.not_true, Bool.or_false, Bool.false_eq_true, if_neg,
    not_false_iff]
  rw [parseNameGo_spec _ (cb.Next).2 1 rfl, hu1]
  have hadv : ((cb.Next).2).advance ((t.takeWhile identChar).length) =
      cb.advance (1 + (t.takeWhile identChar).length) := by
    rw [next_snd, advance_advance]
  have harith : 1 + (t.takeWhile identChar).length =
      (1 + (t.takeWhile identChar).length) := rfl
  rw [hadv]

theorem matchAndConsume_nil (cb : CharBuffer) (x : Nat) (h : cb.unread = []) :
    cb.MatchAndConsume x = (false, cb) := by
  have he : cb.Empty = true := (empty_true_iff cb).mpr h
  rw [MatchAndConsume, he]
  simp

theorem matchAndConsume_eq (cb : CharBuffer) (c : Nat) (t : List Nat)
    (h : cb.unread = c :: t) : cb.MatchAndConsume c = (true, cb.advance 1) := by
  have he : cb.Empty = false := empty_false_of_unread cb c t h
  have hp : cb.Peek = c := peek_of_unread cb c t h
  rw [MatchAndConsume, he, hp]
  simp [next_snd]

theorem matchAndConsume_ne (cb : CharBuffer) (c : Nat) (t : List Nat) (x : Nat)
    (h : cb.unread = c :: t) (hne : x ≠ c) : cb.MatchAndConsume x = (false, cb) := by
  have he : cb.Empty = false := empty_false_of_unread cb c t h
  have hp : cb.Peek = c := peek_of_unread cb c t h
  rw [MatchAndConsume, he, hp]
  have : (c == x) = false := by
    simp
    omega
  simp [this]

end CharBuffer

end POCS

/-! ### List and grammar helper lemmas -/

namespace POCS

theorem drop_takeWhile_length (p : Nat → Bool) (l : List Nat) :
    l.drop (l.takeWhile p).length = l.dropWhile p := by
  induction l with
  | nil => rfl
  | cons c t ih =>
      by_cases h : p c
      · rw [List.takeWhile_cons_of_pos h, List.dropWhile_cons_of_pos h]
        simpa using ih
      · rw [List.takeWhile_cons_of_neg h, List.dropWhile_cons_of_neg h]
        rfl

theorem takeWhile_all (p : Nat → Bool) (l : List Nat) :
    (l.takeWhile p).all p = true := by
  rw [List.all_eq_true]
  intro x hx
  exact List.mem_takeWhile_imp hx

theorem takeWhile_eq_self_of_all (p : Nat → Bool) (l : List Nat)
    (h : l.all p = true) : l.takeWhile p = l := by
  rw [List.takeWhile_eq_self_iff]
  intro x hx
  exact (List.all_eq_true.mp h) x hx

theorem specUInt8_some_iff (b : List Nat) (y : Nat) :
    specUInt8 b = some y ↔
      (b ≠ [] ∧ b.length ≤ 3 ∧ b.all isdigit = true ∧ digitsVal b ≤ 255 ∧
        y = digitsVal b) := by
  rw [specUInt8]
  split_ifs with h
  · simp only [Option.some_inj]
    constructor
    · intro hy
      exact ⟨h.1, h.2.1, h.2.2.1, h.2.2.2, hy.symm⟩
    · intro hy
      exact hy.2.2.2.2.symm
  · simp only [reduceCtorEq, false_iff]
    intro hy
    exact h ⟨hy.1, hy.2.1, hy.2.2.1, hy.2.2.2.1⟩

theorem specUInt8_none_iff (b : List Nat) :
    specUInt8 b = none ↔
      ¬ (b ≠ [] ∧ b.length ≤ 3 ∧ b.all isdigit = true ∧ digitsVal b ≤ 255) := by
  rw [specUInt8]
  split_ifs with h
  · simp [h]
  · simp only [eq_self_iff_true, true_iff]
    exact h

/-- A digit run of length 0 at the head of `b`, i.e. `b.takeWhile isdigit`
empty, forces the spec `uint8` parse of the whole of `b` to fail. -/
theorem specUInt8_none_of_run_nil (b : List Nat)
    (h : b.takeWhile isdigit = []) : specUInt8 b = none := by
  rw [specUInt8_none_iff]
  rintro ⟨hne, -, hall, -⟩
  rw [takeWhile_eq_self_of_all _ _ hall] at h
  exact hne h

/-- A digit run longer than 3 at the head of `b` forces the spec `uint8`
parse of the whole of `b` to fail. -/
theorem specUInt8_none_of_run_long (b : List Nat)
    (h : 3 < (b.takeWhile isdigit).length) : specUInt8 b = none := by
  rw [specUInt8_none_iff]
  rintro ⟨-, hlen, hall, -⟩
  rw [takeWhile_eq_self_of_all _ _ hall] at h
  omega

/-- A digit run whose value exceeds 255 and which spans the whole of a short
`b` forces the spec `uint8` parse to fail; and if the run does not span the
whole of `b`, the parse also fails because a non-digit remains. -/
theorem specUInt8_none_of_run_big (b : List Nat)
    (h : 255 < digitsVal (b.takeWhile isdigit)) : specUInt8 b = none := by
  rw [specUInt8_none_iff]
  rintro ⟨-, -, hall, hval⟩
  rw [takeWhile_eq_self_of_all _ _ hall] at h
  omega

/-- If the digit run stops strictly inside `b`, a non-digit remains and the
spec `uint8` parse of the whole of `b` fails. -/
theorem specUInt8_none_of_rest (b : List Nat)
    (h : b.dropWhile isdigit ≠ []) : specUInt8 b = none := by
  rw [specUInt8_none_iff]
  rintro ⟨-, -, hall, -⟩
  rw [List.dropWhile_eq_nil_iff.mpr (List.all_eq_true.mp hall)] at h
  exact h rfl

/-- If `b` is exactly its digit run and short and small, the spec `uint8`
parse succeeds. -/
theorem specUInt8_some_of_run (b : List Nat)
    (hne : (b.takeWhile isdigit).length ≠ 0)
    (hlen : b.length ≤ 3)
    (hfull : b.dropWhile isdigit = [])
    (hval : digitsVal b ≤ 255) : specUInt8 b = some (digitsVal b) := by
  rw [specUInt8_some_iff]
  have hall : b.all isdigit = true :=
    List.all_eq_true.mpr (List.dropWhile_eq_nil_iff.mp hfull)
  refine ⟨?_, hlen, hall, hval, rfl⟩
  intro hnil
  rw [hnil] at hne
  simp at hne

end POCS

namespace POCS

theorem specGrammarA_none_of_uint8_none (l : List Nat)
    (h : specUInt8 (l.takeWhile isdigit) = none) : specGrammarA l = none := by
  rw [specGrammarA, h]
  cases l.drop (l.takeWhile isdigit).length <;> rfl

theorem specGrammarA_none_of_drop_nil (l : List Nat)
    (h : l.drop (l.takeWhile isdigit).length = []) : specGrammarA l = none := by
  rw [specGrammarA, h]

theorem specGrammarA_none_of_head_ne (l : List Nat) (d : Nat) (b : List Nat)
    (hd : l.drop (l.takeWhile isdigit).length = d :: b) (hne : d ≠ 44) :
    specGrammarA l = none := by
  rw [specGrammarA, hd]
  cases specUInt8 (l.takeWhile isdigit) with
  | none => rfl
  | some x => simp [hne]

theorem specGrammarA_comma (l : List Nat) (b : List Nat) (x : Nat)
    (hd : l.drop (l.takeWhile isdigit).length = 44 :: b)
    (hx : specUInt8 (l.takeWhile isdigit) = some x) :
    specGrammarA l =
      (match specUInt8 b with
       | some y => some (x, y)
       | none => none) := by
  rw [specGrammarA, hd, hx]
  rfl

theorem specGrammarB_nil : specGrammarB [] = none := rfl

theorem specGrammarB_not_lower (c : Nat) (t : List Nat) (h : islower c = false) :
    specGrammarB (c :: t) = none := by
  rw [specGrammarB]
  simp [h]

theorem specGrammarB_none_of_drop_nil (c : Nat) (t : List Nat)
    (hlow : islower c = true)
    (h : (c :: t).drop ((c :: t).takeWhile CharBuffer.identChar).length = []) :
    specGrammarB (c :: t) = none := by
  rw [specGrammarB, h]
  simp [hlow]

theorem specGrammarB_none_of_head_ne (c : Nat) (t : List Nat) (d : Nat) (b : List Nat)
    (hlow : islower c = true)
    (hd : (c :: t).drop ((c :: t).takeWhile CharBuffer.identChar).length = d :: b)
    (hne : d ≠ 61) : specGrammarB (c :: t) = none := by
  rw [specGrammarB, hd]
  simp [hlow, hne]

theorem specGrammarB_equals (c : Nat) (t : List Nat) (b : List Nat)
    (hlow : islower c = true)
    (hd : (c :: t).drop ((c :: t).takeWhile CharBuffer.identChar).length = 61 :: b) :
    specGrammarB (c :: t) =
      (match specUInt8 b with
       | some y => some ((c :: t).takeWhile CharBuffer.identChar, y)
       | none => none) := by
  rw [specGrammarB, hd]
  simp [hlow]

end POCS

namespace POCS

namespace SerialInputHandler

theorem dispatchName_ne_numNum (cb cb1 : CharBuffer) (x y : Nat) :
    dispatchName cb cb1 ≠ Event.numNum x y := by
  rw [dispatchName]
  rcases hpn : cb1.ParseName with ⟨_ | ⟨st, ln⟩, cb2⟩
  · simp
  · dsimp only
    rcases hmc : cb2.MatchAndConsume 61 with ⟨_ | _, cb3⟩
    · simp
    · dsimp only
      rcases hpu : cb3.ParseUInt8 with ⟨_ | v, cb4⟩
      · simp
      · dsimp only
        by_cases he : cb4.Empty = true <;> simp [he]

theorem dispatchNum_ne_nameNum (pin_num : Nat) (cb1 : CharBuffer) (nm : List Nat) (v : Nat) :
    dispatchNum pin_num cb1 ≠ Event.nameNum nm v := by
  rw [dispatchNum]
  rcases hmc : cb1.MatchAndConsume 44 with ⟨_ | _, cb2⟩
  · simp
  · dsimp only
    rcases hpu : cb2.ParseUInt8 with ⟨_ | y, cb3⟩
    · simp
    · dsimp only
      by_cases he : cb3.Empty = true <;> simp [he]

end SerialInputHandler

end POCS

namespace POCS

theorem take_takeWhile_length (p : Nat → Bool) (l : List Nat) :
    l.take (l.takeWhile p).length = l.takeWhile p := by
  induction l with
  | nil => rfl
  | cons c t ih =>
      by_cases h : p c
      · rw [List.takeWhile_cons_of_pos h]
        simpa using ih
      · rw [List.takeWhile_cons_of_neg h]
        rfl

theorem identChar_of_lower (c : Nat) (h : islower c = true) :
    CharBuffer.identChar c = true := by
  simp [CharBuffer.identChar, h]

namespace SerialInputHandler

/-- The Grammar-A half of the dispatcher, relative to the spec grammar:
on a fresh buffer holding exactly the line `l`, the number-pair handler is
invoked with `(x, y)` precisely when the spec `num-pair` grammar matches
`l` with values `(x, y)`. -/
theorem dispatch_numNum_iff (n : Nat) (l : List Nat) (x y : Nat) :
    dispatch ⟨n, l, 0⟩ = Event.numNum x y ↔ specGrammarA l = some (x, y) := by
  have hunread : (⟨n, l, 0⟩ : CharBuffer).unread = l := rfl
  have hspec := CharBuffer.parseUInt8_spec ⟨n, l, 0⟩
  rw [hunread] at hspec
  by_cases h0 : (l.takeWhile isdigit).length = 0
  · -- no digit at the head: Grammar A does not begin
    rw [if_pos h0] at hspec
    rw [dispatch, hspec]
    dsimp only
    have ha : specUInt8 (l.takeWhile isdigit) = none := by
      rw [List.length_eq_zero.mp h0]
      rfl
    rw [specGrammarA_none_of_uint8_none l ha]
    simp only [reduceCtorEq, iff_false]
    exact dispatchName_ne_numNum _ _ _ _
  · by_cases h3 : (l.takeWhile isdigit).length ≤ 3
    · rw [if_neg h0, if_pos h3] at hspec
      by_cases hbig : 255 < digitsVal (l.takeWhile isdigit)
      · -- first number too large
        rw [if_pos hbig] at hspec
        rw [dispatch, hspec]
        dsimp only
        have ha : specUInt8 (l.takeWhile isdigit) = none := by
          rw [specUInt8_none_iff]
          rintro ⟨-, -, -, hv⟩
          omega
        rw [specGrammarA_none_of_uint8_none l ha]
        simp only [reduceCtorEq, iff_false]
        exact dispatchName_ne_numNum _ _ _ _
      · -- first number parses
        rw [if_neg hbig] at hspec
        have hsua : specUInt8 (l.takeWhile isdigit) = some (digitsVal (l.takeWhile isdigit)) := by
          rw [specUInt8_some_iff]
          refine ⟨?_, h3, takeWhile_all _ _, by omega, rfl⟩
          intro hnil
          rw [hnil] at h0
          simp at h0
        rw [dispatch, hspec]
        dsimp only
        have hdrop : l.drop (l.takeWhile isdigit).length = l.dropWhile isdigit :=
          drop_takeWhile_length _ _
        have hu2 : ((⟨n, l, 0⟩ : CharBuffer).advance (l.takeWhile isdigit).length).unread =
            l.dropWhile isdigit := by
          rw [CharBuffer.unread_advance, hunread, hdrop]
        cases hdw : l.dropWhile isdigit with
        | nil =>
            rw [hdw] at hu2
            have hmc := CharBuffer.matchAndConsume_nil _ 44 hu2
            rw [dispatchNum, hmc]
            dsimp only
            rw [specGrammarA_none_of_drop_nil l (by rw [hdrop, hdw])]
            simp
        | cons d b =>
            rw [hdw] at hu2
            by_cases hd44 : d = 44
            · subst hd44
              have hmc := CharBuffer.matchAndConsume_eq _ 44 b hu2
              rw [dispatchNum, hmc]
              dsimp only
              have hu3 : ((((⟨n, l, 0⟩ : CharBuffer).advance
                  (l.takeWhile isdigit).length)).advance 1).unread = b :=
                CharBuffer.unread_advance_one _ _ _ hu2
              have hspec2 := CharBuffer.parseUInt8_spec
                ((((⟨n, l, 0⟩ : CharBuffer).advance (l.takeWhile isdigit).length)).advance 1)
              rw [hu3] at hspec2
              rw [specGrammarA_comma l b (digitsVal (l.takeWhile isdigit))
                (by rw [hdrop, hdw]) hsua]
              by_cases h20 : (b.takeWhile isdigit).length = 0
              · rw [if_pos h20] at hspec2
                rw [hspec2]
                dsimp only
                rw [specUInt8_none_of_run_nil b (List.length_eq_zero.mp h20)]
                simp
              · by_cases h23 : (b.takeWhile isdigit).length ≤ 3
                · rw [if_neg h20, if_pos h23] at hspec2
                  by_cases h2big : 255 < digitsVal (b.takeWhile isdigit)
                  · rw [if_pos h2big] at hspec2
                    rw [hspec2]
                    dsimp only
                    rw [specUInt8_none_of_run_big b h2big]
                    simp
                  · rw [if_neg h2big] at hspec2
                    rw [hspec2]
                    dsimp only
                    have hu4 : ((((((⟨n, l, 0⟩ : CharBuffer).advance
                        (l.takeWhile isdigit).length)).advance 1)).advance
                          (b.takeWhile isdigit).length).unread = b.dropWhile isdigit := by
                      rw [CharBuffer.unread_advance, hu3, drop_takeWhile_length]
                    cases hrest : b.dropWhile isdigit with
                    | nil =>
                        rw [hrest] at hu4
                        have hempty := (CharBuffer.empty_true_iff _).mpr hu4
                        rw [hempty, if_pos rfl]
                        have hfull : b.takeWhile isdigit = b := by
                          have := List.takeWhile_append_dropWhile (p := isdigit) (l := b)
                          rw [hrest, List.append_nil] at this
                          exact this
                        rw [specUInt8_some_of_run b h20 (by rw [← hfull]; exact h23) hrest
                          (by rw [← hfull]; omega)]
                        rw [hfull]
                        simp [Prod.ext_iff, eq_comm]
                    | cons e r =>
                        rw [hrest] at hu4
                        have hempty := CharBuffer.empty_false_of_unread _ e r hu4
                        rw [hempty, if_neg Bool.false_ne_true]
                        rw [specUInt8_none_of_rest b (by rw [hrest]; simp)]
                        simp
                · rw [if_neg h20, if_neg h23] at hspec2
                  rw [hspec2]
                  dsimp only
                  rw [specUInt8_none_of_run_long b (by omega)]
                  simp
            · have hmc := CharBuffer.matchAndConsume_ne _ d b 44 hu2
                (fun hc => hd44 hc.symm)
              rw [dispatchNum, hmc]
              dsimp only
              rw [specGrammarA_none_of_head_ne l d b (by rw [hdrop, hdw]) hd44]
              simp
    · -- digit run longer than 3
      rw [if_neg h0, if_neg h3] at hspec
      rw [dispatch, hspec]
      dsimp only
      have ha : specUInt8 (l.takeWhile isdigit) = none := by
        rw [specUInt8_none_iff]
        rintro ⟨-, hlen, -, -⟩
        omega
      rw [specGrammarA_none_of_uint8_none l ha]
      simp only [reduceCtorEq, iff_false]
      exact dispatchName_ne_numNum _ _ _ _

end SerialInputHandler

end POCS

namespace POCS

namespace SerialInputHandler

/-- The Grammar-B half of the dispatcher, relative to the spec grammar,
for lines that do not start with a digit (so that `ParseUInt8` fails
without consuming anything): the name-pair handler is invoked with
`(nm, v)` precisely when the spec `name-pair` grammar matches `l`. -/
theorem dispatch_nameNum_iff (n : Nat) (l : List Nat) (nm : List Nat) (v : Nat)
    (hnd : isdigit (l.headD 0) = false) :
    dispatch ⟨n, l, 0⟩ = Event.nameNum nm v ↔ specGrammarB l = some (nm, v) := by
  have hunread : (⟨n, l, 0⟩ : CharBuffer).unread = l := rfl
  have ha : l.takeWhile isdigit = [] := by
    cases l with
    | nil => rfl
    | cons c t =>
        have hc : isdigit c = false := hnd
        rw [List.takeWhile_cons_of_neg (by simp [hc])]
  have hrun0 : (l.takeWhile isdigit).length = 0 := by rw [ha]; rfl
  have hspec := CharBuffer.parseUInt8_spec ⟨n, l, 0⟩
  rw [hunread, if_pos hrun0] at hspec
  rw [dispatch, hspec]
  dsimp only
  cases l with
  | nil =>
      have hpn := CharBuffer.parseName_none_nil (⟨n, [], 0⟩ : CharBuffer) rfl
      rw [dispatchName, hpn]
      dsimp only
      rw [specGrammarB_nil]
      simp
  | cons c t =>
      cases hlow : islower c with
      | false =>
          have hpn := CharBuffer.parseName_none_notLower (⟨n, c :: t, 0⟩ : CharBuffer)
            c t rfl hlow
          rw [dispatchName, hpn]
          dsimp only
          rw [specGrammarB_not_lower c t hlow]
          simp
      | true =>
          have hpn := CharBuffer.parseName_some (⟨n, c :: t, 0⟩ : CharBuffer) c t rfl hlow
          have hident : (c :: t).takeWhile CharBuffer.identChar =
              c :: t.takeWhile CharBuffer.identChar :=
            List.takeWhile_cons_of_pos (identChar_of_lower c hlow)
          have hm : 1 + (t.takeWhile CharBuffer.identChar).length =
              ((c :: t).takeWhile CharBuffer.identChar).length := by
            rw [hident]
            simp [Nat.add_comm]
          rw [dispatchName, hpn]
          dsimp only
          have hdropB : (c :: t).drop ((c :: t).takeWhile CharBuffer.identChar).length =
              (c :: t).dropWhile CharBuffer.identChar :=
            drop_takeWhile_length _ _
          have hu2 : (((⟨n, c :: t, 0⟩ : CharBuffer)).advance
              (1 + (t.takeWhile CharBuffer.identChar).length)).unread =
              (c :: t).dropWhile CharBuffer.identChar := by
            rw [CharBuffer.unread_advance, hunread, hm, hdropB]
          cases hdw : (c :: t).dropWhile CharBuffer.identChar with
          | nil =>
              rw [hdw] at hu2
              have hmc := CharBuffer.matchAndConsume_nil _ 61 hu2
              rw [hmc]
              dsimp only
              rw [specGrammarB_none_of_drop_nil c t hlow (by rw [hdropB, hdw])]
              simp
          | cons d b =>
              rw [hdw] at hu2
              by_cases hd61 : d = 61
              · subst hd61
                have hmc := CharBuffer.matchAndConsume_eq _ 61 b hu2
                rw [hmc]
                dsimp only
                have hu3 : (((((⟨n, c :: t, 0⟩ : CharBuffer)).advance
                    (1 + (t.takeWhile CharBuffer.identChar).length))).advance 1).unread = b :=
                  CharBuffer.unread_advance_one _ _ _ hu2
                have hspec2 := CharBuffer.parseUInt8_spec
                  (((((⟨n, c :: t, 0⟩ : CharBuffer)).advance
                    (1 + (t.takeWhile CharBuffer.identChar).length))).advance 1)
                rw [hu3] at hspec2
                rw [specGrammarB_equals c t b hlow (by rw [hdropB, hdw])]
                have hname : (c :: t).take (1 + (t.takeWhile CharBuffer.identChar).length) =
                    (c :: t).takeWhile CharBuffer.identChar := by
                  rw [hm, take_takeWhile_length]
                by_cases h20 : (b.takeWhile isdigit).length = 0
                · rw [if_pos h20] at hspec2
                  rw [hspec2]
                  dsimp only
                  rw [specUInt8_none_of_run_nil b (List.length_eq_zero.mp h20)]
                  simp
                · by_cases h23 : (b.takeWhile isdigit).length ≤ 3
                  · rw [if_neg h20, if_pos h23] at hspec2
                    by_cases h2big : 255 < digitsVal (b.takeWhile isdigit)
                    · rw [if_pos h2big] at hspec2
                      rw [hspec2]
                      dsimp only
                      rw [specUInt8_none_of_run_big b h2big]
                      simp
                    · rw [if_neg h2big] at hspec2
                      rw [hspec2]
                      dsimp only
                      have hu4 : (((((((⟨n, c :: t, 0⟩ : CharBuffer)).advance
                          (1 + (t.takeWhile CharBuffer.identChar).length))).advance 1)).advance
                            (b.takeWhile isdigit).length).unread = b.dropWhile isdigit := by
                        rw [CharBuffer.unread_advance, hu3, drop_takeWhile_length]
                      cases hrest : b.dropWhile isdigit with
                      | nil =>
                          rw [hrest] at hu4
                          have hempty := (CharBuffer.empty_true_iff _).mpr hu4
                          rw [hempty, if_pos rfl]
                          have hfull : b.takeWhile isdigit = b := by
                            have hsplit := List.takeWhile_append_dropWhile (p := isdigit) (l := b)
                            rw [hrest, List.append_nil] at hsplit
                            exact hsplit
                          rw [specUInt8_some_of_run b h20 (by rw [← hfull]; exact h23) hrest
                            (by rw [← hfull]; omega)]
                          rw [hfull]
                          dsimp only [List.drop_zero]
                          rw [hname]
                          simp only [Event.nameNum.injEq, Option.some_inj, Prod.mk.injEq]
                      | cons e r =>
                          rw [hrest] at hu4
                          have hempty := CharBuffer.empty_false_of_unread _ e r hu4
                          rw [hempty, if_neg Bool.false_ne_true]
                          rw [specUInt8_none_of_rest b (by rw [hrest]; simp)]
                          simp
                  · rw [if_neg h20, if_neg h23] at hspec2
                    rw [hspec2]
                    dsimp only
                    rw [specUInt8_none_of_run_long b (by omega)]
                    simp
              · have hmc := CharBuffer.matchAndConsume_ne _ d b 61 hu2
                  (fun hc => hd61 hc.symm)
                rw [hmc]
                dsimp only
                rw [specGrammarB_none_of_head_ne c t d b hlow (by rw [hdropB, hdw]) hd61]
                simp

end SerialInputHandler

end POCS

/-! ### Behaviour of the line assembler -/

namespace POCS

theorem isprint_not_newline (c : Nat) (h : isprint c = true) :
    SerialInputHandler.IsNewLine c = false := by
  simp [isprint] at h
  simp [SerialInputHandler.IsNewLine]
  omega

namespace SerialInputHandler

/-- Horizontal whitespace is discarded in every state: processing a blank
byte leaves the assembler exactly where it was. -/
theorem accumGo_blank (s : SerialInputHandler) (c : Nat) (rest : List Nat)
    (hb : isblank c = true) : accumGo s (c :: rest) = accumGo s rest := by
  have hnl : IsNewLine c = false := by
    simp [isblank] at hb
    simp [IsNewLine]
    omega
  rw [accumGo]
  by_cases hw : s.wait_for_new_line = true
  · rw [if_pos hw, hnl, if_neg Bool.false_ne_true]
  · rw [if_neg hw, hnl, if_neg Bool.false_ne_true, if_pos hb]

/-- A line terminator arriving while the buffer is empty (and the assembler
is not resyncing) is a no-op. -/
theorem accumGo_newline_empty (s : SerialInputHandler) (c : Nat) (rest : List Nat)
    (hw : s.wait_for_new_line = false) (hn : IsNewLine c = true)
    (he : s.input_buffer.Empty = true) :
    accumGo s (c :: rest) = accumGo s rest := by
  rw [accumGo, hw, if_neg Bool.false_ne_true, if_pos hn, he]
  simp

/-- A line terminator arriving while the buffer is non-empty completes the
line: the assembler stops draining and reports a line. -/
theorem accumGo_complete (s : SerialInputHandler) (c : Nat) (rest : List Nat)
    (hw : s.wait_for_new_line = false) (hn : IsNewLine c = true)
    (he : s.input_buffer.Empty = false) :
    accumGo s (c :: rest) = (true, { s with has_line := true }, rest) := by
  rw [accumGo, hw, if_neg Bool.false_ne_true, if_pos hn, he]
  simp

/-- Accumulating a printable line that fits: the whitespace-stripped
characters are appended to the buffer and draining continues. -/
theorem accumGo_fill :
    ∀ (line : List Nat) (s : SerialInputHandler) (tail : List Nat),
      line.all isprint = true →
      s.wait_for_new_line = false →
      s.input_buffer.buf.length + (strip line).length ≤ s.input_buffer.kBufferSize →
      accumGo s (line ++ tail) =
        accumGo (setBuf s (s.input_buffer.buf ++ strip line)) tail := by
  intro line
  induction line with
  | nil =>
      intro s tail _ _ _
      have hb : s.input_buffer.buf ++ strip [] = s.input_buffer.buf := by simp [strip]
      rw [List.nil_append, hb]
      rfl
  | cons c line ih =>
      intro s tail hall hw hlen
      rw [List.all_cons, Bool.and_eq_true] at hall
      have hc : isprint c = true := hall.1
      have hall' : line.all isprint = true := hall.2
      by_cases hb : isblank c = true
      · have hs : strip (c :: line) = strip line := by
          simp [strip, List.filter_cons, hb]
        rw [hs] at hlen ⊢
        rw [List.cons_append, accumGo_blank s c _ hb]
        exact ih s tail hall' hw hlen
      · have hbf : isblank c = false := by
          cases h : isblank c with
          | false => rfl
          | true => exact absurd h hb
        have hnl : IsNewLine c = false := isprint_not_newline c hc
        have hs : strip (c :: line) = c :: strip line := by
          simp [strip, List.filter_cons, hbf]
        rw [hs] at hlen ⊢
        have hroom : s.input_buffer.write_cursor < s.input_buffer.kBufferSize := by
          rw [CharBuffer.write_cursor]
          simp only [List.length_cons] at hlen
          omega
        have happ : s.input_buffer.Append c =
            (true, { s.input_buffer with buf := s.input_buffer.buf ++ [c] }) := by
          rw [CharBuffer.Append, if_pos hroom]
        have hwne : ¬ (s.wait_for_new_line = true) := by
          rw [hw]; exact Bool.false_ne_true
        rw [List.cons_append, accumGo, if_neg hwne, hnl,
          if_neg Bool.false_ne_true, hbf, if_neg Bool.false_ne_true, if_pos hc, happ]
        dsimp only
        rw [if_pos rfl]
        have hstep := ih (setBuf s (s.input_buffer.buf ++ [c])) tail hall' hw
          (by
            simp only [setBuf, List.length_append, List.length_cons,
              List.length_nil] at hlen ⊢
            omega)
        refine Eq.trans ?_ (Eq.trans hstep ?_)
        · rfl
        · rw [show (setBuf s (s.input_buffer.buf ++ [c])).input_buffer.buf =
              s.input_buffer.buf ++ [c] from rfl, List.append_assoc]
          rfl

/-- Accumulating a printable, blank-free character sequence that overflows
the buffer (or arriving while already resyncing): when the next terminator
(CR or LF) arrives, the assembler simply resynchronises — flags cleared,
buffer reset — with no line reported. -/
theorem accumGo_overflow :
    ∀ (cs : List Nat) (s : SerialInputHandler) (rest : List Nat) (t : Nat),
      IsNewLine t = true →
      cs.all (fun c => isprint c && !isblank c) = true →
      s.input_buffer.buf.length ≤ s.input_buffer.kBufferSize →
      (s.wait_for_new_line = true ∨
        s.input_buffer.kBufferSize < s.input_buffer.buf.length + cs.length) →
      accumGo s (cs ++ t :: rest) = accumGo (resetState s) rest := by
  intro cs
  induction cs with
  | nil =>
      intro s rest t ht _ hcap hov
      have hw : s.wait_for_new_line = true := by
        rcases hov with h | h
        · exact h
        · simp at h; omega
      rw [List.nil_append, accumGo, if_pos hw, if_pos ht]
      rfl
  | cons c cs ih =>
      intro s rest t ht hall hcap hov
      rw [List.all_cons, Bool.and_eq_true] at hall
      rw [Bool.and_eq_true] at hall
      obtain ⟨⟨hc, hcb⟩, hall'⟩ := hall
      have hbf : isblank c = false := by
        cases h : isblank c with
        | false => rfl
        | true => rw [h] at hcb; exact absurd hcb (by simp)
      have hnl : IsNewLine c = false := isprint_not_newline c hc
      rw [List.cons_append, accumGo]
      by_cases hw : s.wait_for_new_line = true
      · rw [if_pos hw, hnl, if_neg Bool.false_ne_true]
        exact ih s rest t ht hall' hcap (Or.inl hw)
      · have hov2 : s.input_buffer.kBufferSize <
            s.input_buffer.buf.length + (c :: cs).length := by
          rcases hov with h | h
          · exact absurd h hw
          · exact h
        rw [if_neg hw, hnl, if_neg Bool.false_ne_true, hbf, if_neg Bool.false_ne_true,
          if_pos hc]
        by_cases hroom : s.input_buffer.write_cursor < s.input_buffer.kBufferSize
        · have happ : s.input_buffer.Append c =
              (true, { s.input_buffer with buf := s.input_buffer.buf ++ [c] }) := by
            rw [CharBuffer.Append, if_pos hroom]
          rw [happ]
          dsimp only
          rw [if_pos rfl]
          have hstep := ih (setBuf s (s.input_buffer.buf ++ [c])) rest t ht hall'
            (by
              simp only [setBuf, List.length_append, List.length_cons, List.length_nil]
              rw [CharBuffer.write_cursor] at hroom
              omega)
            (by
              right
              simp only [setBuf, List.length_append, List.length_cons, List.length_nil]
              simp only [List.length_cons] at hov2
              omega)
          refine Eq.trans ?_ (Eq.trans hstep ?_)
          · rfl
          · rfl
        · have happ : s.input_buffer.Append c = (false, s.input_buffer) := by
            rw [CharBuffer.Append, if_neg hroom]
          rw [happ]
          dsimp only
          rw [if_neg Bool.false_ne_true]
          have hstep := ih { s with wait_for_new_line := true } rest t ht hall' hcap
            (Or.inl rfl)
          rw [hstep]
          rfl

/-- A successful `AccumulateLine` drain consumes at least one byte. -/
theorem accumGo_true_consumes :
    ∀ (input : List Nat) (s s1 : SerialInputHandler) (rem : List Nat),
      accumGo s input = (true, s1, rem) → rem.length < input.length := by
  intro input
  induction input with
  | nil =>
      intro s s1 rem h
      rw [accumGo] at h
      exact absurd h (by simp)
  | cons c rest ih =>
      intro s s1 rem h
      rw [accumGo] at h
      split_ifs at h with h1 h2 h3 h4 h5 h6
      all_goals
        first
          | (have hlt := ih _ _ _ h
             simp only [List.length_cons]
             omega)
          | (injection h with ha hb
             injection hb with hb1 hb2
             rw [← hb2]
             simp)

end SerialInputHandler

end POCS

/-! ### The driving loop -/

namespace POCS

namespace SerialInputHandler

theorem accumulateLine_noline (s : SerialInputHandler) (input : List Nat)
    (h : s.has_line = false) : s.AccumulateLine input = accumGo s input := by
  rw [AccumulateLine, if_neg (by rw [h]; exact Bool.false_ne_true)]

theorem accumulateLine_line (s : SerialInputHandler) (input : List Nat)
    (h : s.has_line = true) : s.AccumulateLine input = (true, s, input) := by
  rw [AccumulateLine, if_pos h]

/-- The result of `handleGo` does not depend on the fuel, as long as the
fuel exceeds the input length (when no line is pending). -/
theorem handleGo_fuel_noline :
    ∀ (fuel1 fuel2 : Nat) (s : SerialInputHandler) (input : List Nat),
      s.has_line = false →
      input.length + 1 ≤ fuel1 → input.length + 1 ≤ fuel2 →
      handleGo fuel1 s input = handleGo fuel2 s input := by
  intro fuel1
  induction fuel1 with
  | zero => intro fuel2 s input _ hf1 _; omega
  | succ f1 ih =>
      intro fuel2 s input h hf1 hf2
      cases fuel2 with
      | zero => omega
      | succ f2 =>
          rw [handleGo, handleGo]
          rcases hacc : s.AccumulateLine input with ⟨b, s1, input1⟩
          cases b with
          | false => rfl
          | true =>
              dsimp only
              have hcons : input1.length < input.length := by
                rw [accumulateLine_noline s input h] at hacc
                exact accumGo_true_consumes input s s1 input1 hacc
              rw [ih f2 { s1 with wait_for_new_line := false, has_line := false,
                                  input_buffer := s1.input_buffer.Reset } input1 rfl
                (by omega) (by omega)]

/-- Fuel irrelevance for `handleGo` with two spare units of fuel, pending
line or not. -/
theorem handleGo_fuel :
    ∀ (fuel1 fuel2 : Nat) (s : SerialInputHandler) (input : List Nat),
      input.length + 2 ≤ fuel1 → input.length + 2 ≤ fuel2 →
      handleGo fuel1 s input = handleGo fuel2 s input := by
  intro fuel1 fuel2 s input h1 h2
  cases hh : s.has_line with
  | false => exact handleGo_fuel_noline fuel1 fuel2 s input hh (by omega) (by omega)
  | true =>
      cases fuel1 with
      | zero => omega
      | succ f1 =>
          cases fuel2 with
          | zero => omega
          | succ f2 =>
              rw [handleGo, handleGo]
              rw [accumulateLine_line s input hh]
              dsimp only
              rw [handleGo_fuel_noline f1 f2 { s with wait_for_new_line := false,
                                                       has_line := false,
                                                       input_buffer := s.input_buffer.Reset } input rfl
                (by omega) (by omega)]

/-- One full line-step of `Handle`: if draining reports a line with `rest`
left over, `Handle` dispatches that line, resets, and continues as a fresh
`Handle` run on `rest`. -/
theorem handle_step (s : SerialInputHandler) (input rest : List Nat)
    (s1 : SerialInputHandler)
    (h : s.has_line = false) (hacc : accumGo s input = (true, s1, rest)) :
    s.Handle input =
      ((SerialInputHandler.Handle { s1 with wait_for_new_line := false, has_line := false,
                                            input_buffer := s1.input_buffer.Reset } rest).1,
       (SerialInputHandler.Handle { s1 with wait_for_new_line := false, has_line := false,
                                            input_buffer := s1.input_buffer.Reset } rest).2.1,
       dispatch s1.input_buffer ::
         (SerialInputHandler.Handle { s1 with wait_for_new_line := false, has_line := false,
                                              input_buffer := s1.input_buffer.Reset } rest).2.2) := by
  have hcons : rest.length < input.length :=
    accumGo_true_consumes input s s1 rest hacc
  rw [Handle, Handle]
  rw [show input.length + 2 = (input.length + 1) + 1 from rfl]
  rw [handleGo]
  rw [accumulateLine_noline s input h, hacc]
  dsimp only
  rw [handleGo_fuel_noline (input.length + 1) (rest.length + 2)
    { s1 with wait_for_new_line := false, has_line := false,
              input_buffer := s1.input_buffer.Reset } rest rfl (by omega) (by omega)]

/-- If two inputs drain identically from a state with no pending line, the
whole `Handle` run is identical on them. -/
theorem handle_congr (s : SerialInputHandler) (input1 input2 : List Nat)
    (h : s.has_line = false) (hacc : accumGo s input1 = accumGo s input2) :
    s.Handle input1 = s.Handle input2 := by
  rcases hr : accumGo s input2 with ⟨b, s1, rem⟩
  rw [hr] at hacc
  cases b with
  | false =>
      rw [Handle, Handle]
      rw [show input1.length + 2 = (input1.length + 1) + 1 from rfl]
      rw [show input2.length + 2 = (input2.length + 1) + 1 from rfl]
      rw [handleGo, handleGo]
      rw [accumulateLine_noline s input1 h, accumulateLine_noline s input2 h, hacc, hr]
  | true =>
      have hc1 : rem.length < input1.length :=
        accumGo_true_consumes input1 s s1 rem hacc
      have hc2 : rem.length < input2.length :=
        accumGo_true_consumes input2 s s1 rem hr
      rw [Handle, Handle]
      rw [show input1.length + 2 = (input1.length + 1) + 1 from rfl]
      rw [show input2.length + 2 = (input2.length + 1) + 1 from rfl]
      rw [handleGo, handleGo]
      rw [accumulateLine_noline s input1 h, accumulateLine_noline s input2 h, hacc, hr]
      dsimp only
      rw [handleGo_fuel_noline (input1.length + 1) (input2.length + 1)
        { s1 with wait_for_new_line := false, has_line := false,
                  input_buffer := s1.input_buffer.Reset } rem rfl (by omega) (by omega)]

end SerialInputHandler

end POCS

/-! ### The flag invariant -/

namespace POCS

namespace SerialInputHandler

/-- Draining from a state with no pending line never produces a state with
both flags raised: `has_line_` is raised only in the branch where
`wait_for_new_line_` is known false, and every other transition keeps
`has_line_` lowered. -/
theorem accumGo_flags :
    ∀ (input : List Nat) (s : SerialInputHandler) (b : Bool)
      (s1 : SerialInputHandler) (rem : List Nat),
      s.has_line = false → accumGo s input = (b, s1, rem) →
      ¬ (s1.has_line = true ∧ s1.wait_for_new_line = true) := by
  intro input
  induction input with
  | nil =>
      intro s b s1 rem h hacc
      rw [accumGo] at hacc
      injection hacc with h1 h2
      injection h2 with h21 h22
      subst h21
      intro hk
      rw [h] at hk
      exact absurd hk.1 (by simp)
  | cons c rest ih =>
      intro s b s1 rem h hacc
      rw [accumGo] at hacc
      split_ifs at hacc with h1 h2 h3 h4 h5 h6
      · refine ih _ _ _ _ ?_ hacc
        exact h
      · refine ih _ _ _ _ ?_ hacc
        exact h
      · have hs1 : { s with has_line := true } = s1 := by
          injection hacc with ha hb
          injection hb with hb1 hb2
        subst hs1
        intro hk
        exact h1 hk.2
      · refine ih _ _ _ _ ?_ hacc
        exact h
      · refine ih _ _ _ _ ?_ hacc
        exact h
      · refine ih _ _ _ _ ?_ hacc
        exact h
      · refine ih _ _ _ _ ?_ hacc
        exact h
      · refine ih _ _ _ _ ?_ hacc
        exact h
      · refine ih _ _ _ _ ?_ hacc
        exact h

/-- `AccumulateLine` preserves the mutual exclusion of the two flags. -/
theorem accumulateLine_flags (s : SerialInputHandler) (input : List Nat)
    (hs : ¬ (s.has_line = true ∧ s.wait_for_new_line = true)) :
    ¬ ((s.AccumulateLine input).2.1.has_line = true ∧
       (s.AccumulateLine input).2.1.wait_for_new_line = true) := by
  cases hh : s.has_line with
  | true =>
      rw [accumulateLine_line s input hh]
      exact hs
  | false =>
      rw [accumulateLine_noline s input hh]
      rcases hr : accumGo s input with ⟨b, s1, rem⟩
      exact accumGo_flags input s b s1 rem hh hr

/-- The `Handle` loop preserves the mutual exclusion of the two flags. -/
theorem handleGo_flags :
    ∀ (fuel : Nat) (s : SerialInputHandler) (input : List Nat),
      ¬ (s.has_line = true ∧ s.wait_for_new_line = true) →
      ¬ ((handleGo fuel s input).1.has_line = true ∧
         (handleGo fuel s input).1.wait_for_new_line = true) := by
  intro fuel
  induction fuel with
  | zero => intro s input hs; exact hs
  | succ fuel ih =>
      intro s input hs
      rw [handleGo]
      rcases hacc : s.AccumulateLine input with ⟨b, s1, rem⟩
      cases b with
      | false =>
          have := accumulateLine_flags s input hs
          rw [hacc] at this
          exact this
      | true =>
          dsimp only
          exact ih _ rem (by intro hk; exact absurd hk.1 (by simp))

end SerialInputHandler

end POCS

namespace POCS

theorem length_takeWhile_le_self (p : Nat → Bool) (l : List Nat) :
    (l.takeWhile p).length ≤ l.length := by
  induction l with
  | nil => exact Nat.le_refl 0
  | cons c t ih =>
      by_cases h : p c
      · rw [List.takeWhile_cons_of_pos h]
        simpa using ih
      · rw [List.takeWhile_cons_of_neg h]
        simp

theorem specGrammarA_nil : specGrammarA [] = none := rfl

end POCS

/-! ### Claims -/

namespace POCS

open SerialInputHandler

/-- Claim C2: `ParseUInt8` succeeds if and only if the maximal decimal-digit
run starting at the read cursor has length between 1 and 3 and its base-10
value is at most 255, in which case it returns that value; a line beginning
`255,` parses the first number successfully, a line beginning `256,` fails
the numeric parse, and `1000` fails by digit count (after consuming exactly
four digits). -/
theorem c2_parseUInt8_success_iff :
    (∀ (cb : CharBuffer) (v : Nat),
      (cb.ParseUInt8).1 = some v ↔
        (1 ≤ (cb.unread.takeWhile isdigit).length ∧
         (cb.unread.takeWhile isdigit).length ≤ 3 ∧
         digitsVal (cb.unread.takeWhile isdigit) ≤ 255 ∧
         v = digitsVal (cb.unread.takeWhile isdigit))) ∧
    (CharBuffer.ParseUInt8 ⟨8, bytes "255,0", 0⟩).1 = some 255 ∧
    (CharBuffer.ParseUInt8 ⟨8, bytes "256,0", 0⟩).1 = none ∧
    CharBuffer.ParseUInt8 ⟨8, bytes "1000", 0⟩ = (none, ⟨8, bytes "1000", 4⟩) := by
  refine ⟨?_, by rfl, by rfl, by rfl⟩
  intro cb v
  rw [CharBuffer.parseUInt8_spec cb]
  by_cases h0 : (cb.unread.takeWhile isdigit).length = 0
  · rw [if_pos h0]
    constructor
    · intro h
      exact absurd h (by simp)
    · rintro ⟨h1, -, -, -⟩
      omega
  · by_cases h3 : (cb.unread.takeWhile isdigit).length ≤ 3
    · rw [if_neg h0, if_pos h3]
      by_cases hb : 255 < digitsVal (cb.unread.takeWhile isdigit)
      · rw [if_pos hb]
        constructor
        · intro h
          exact absurd h (by simp)
        · rintro ⟨-, -, h255, -⟩
          omega
      · rw [if_neg hb]
        constructor
        · intro h
          have hv : digitsVal (cb.unread.takeWhile isdigit) = v := Option.some_inj.mp h
          exact ⟨by omega, h3, by omega, hv.symm⟩
        · rintro ⟨-, -, -, hv⟩
          subst hv
          rfl
    · rw [if_neg h0, if_neg h3]
      constructor
      · intro h
        exact absurd h (by simp)
      · rintro ⟨-, h2, -, -⟩
        omega

/-- Claim C5: in every state reachable from the initial state by any
sequence of input bytes and dispatch steps, `has_line_` and
`wait_for_new_line_` are never simultaneously true. -/
theorem c5_flags_mutually_exclusive :
    ∀ (n : Nat) (s : SerialInputHandler), Reachable n s →
      ¬ (s.has_line = true ∧ s.wait_for_new_line = true) := by
  intro n s h
  induction h with
  | init =>
      intro hk
      exact absurd hk.1 (by simp [SerialInputHandler.init])
  | accumulate s input hr ih => exact accumulateLine_flags s input ih
  | handle s input hr ih => exact handleGo_flags _ s input ih

/-- Witness for C5 at the initial state. -/
theorem c5_witness :
    ¬ ((SerialInputHandler.init 8).has_line = true ∧
       (SerialInputHandler.init 8).wait_for_new_line = true) :=
  c5_flags_mutually_exclusive 8 (SerialInputHandler.init 8) Reachable.init

/-- Claim C7: `\n` and `\r` are both accepted as terminators, in any
combination or repetition — a terminator arriving while the buffer is empty
(and the assembler is not resyncing) is a no-op — and the byte sequence
`"ab=7\r\n12,9\n"` produces exactly `OnNameNumber("ab", 7)` then
`OnNumberNumber(12, 9)`. -/
theorem c7_terminator_tolerance :
    (∀ (s : SerialInputHandler) (c : Nat) (rest : List Nat),
      s.wait_for_new_line = false → IsNewLine c = true →
      s.input_buffer.Empty = true →
      accumGo s (c :: rest) = accumGo s rest) ∧
    (SerialInputHandler.Handle (SerialInputHandler.init 8)
        (bytes "ab=7\r\n12,9\n")).2.2 =
      [Event.nameNum (bytes "ab") 7, Event.numNum 12 9] :=
  ⟨accumGo_newline_empty, by rfl⟩

/-- Witness for C7: a stray CR on an empty buffer is a no-op. -/
theorem c7_witness :
    accumGo (SerialInputHandler.init 8) (13 :: []) =
      accumGo (SerialInputHandler.init 8) [] :=
  c7_terminator_tolerance.1 (SerialInputHandler.init 8) 13 [] rfl rfl rfl

/-- Claim C8: horizontal whitespace is discarded during accumulation
without being stored or causing an error, in every state; and the lines
`"12 , 34"` and `"12,34"` produce the identical observable outcome, one
call `OnNumberNumber(12, 34)`. -/
theorem c8_whitespace_insensitive :
    (∀ (s : SerialInputHandler) (c : Nat) (rest : List Nat), isblank c = true →
      accumGo s (c :: rest) = accumGo s rest) ∧
    SerialInputHandler.Handle (SerialInputHandler.init 8) (bytes "12 , 34\n") =
      SerialInputHandler.Handle (SerialInputHandler.init 8) (bytes "12,34\n") ∧
    (SerialInputHandler.Handle (SerialInputHandler.init 8) (bytes "12,34\n")).2.2 =
      [Event.numNum 12 34] :=
  ⟨accumGo_blank, by rfl, by rfl⟩

/-- Witness for C8: a tab is discarded. -/
theorem c8_witness :
    accumGo (SerialInputHandler.init 8) (9 :: []) =
      accumGo (SerialInputHandler.init 8) [] :=
  c8_whitespace_insensitive.1 (SerialInputHandler.init 8) 9 [] rfl

/-- Claim C9: `Append(c)` returns success and stores `c` (incrementing the
write cursor by one) exactly when `write_cursor < N` before the call; when
`write_cursor = N` it returns failure and leaves the entire buffer state
unchanged. -/
theorem c9_append_contract :
    ∀ (cb : CharBuffer) (c : Nat),
      ((cb.Append c).1 = true ↔ cb.write_cursor < cb.kBufferSize) ∧
      (cb.write_cursor < cb.kBufferSize →
        (cb.Append c).2 = { cb with buf := cb.buf ++ [c] } ∧
        ((cb.Append c).2).write_cursor = cb.write_cursor + 1) ∧
      (cb.write_cursor = cb.kBufferSize → cb.Append c = (false, cb)) := by
  intro cb c
  refine ⟨?_, ?_, ?_⟩
  · rw [CharBuffer.Append]
    split_ifs with h
    · simp [h]
    · simp [h]
  · intro h
    rw [CharBuffer.Append, if_pos h]
    refine ⟨rfl, ?_⟩
    simp [CharBuffer.write_cursor]
  · intro h
    rw [CharBuffer.Append, if_neg (by omega)]

/-- Witness for C9: appending to a one-slot-free buffer stores the byte;
appending to a full buffer is rejected without mutation. -/
theorem c9_witness :
    ((⟨2, [97], 0⟩ : CharBuffer).Append 98).2 = (⟨2, [97, 98], 0⟩ : CharBuffer) ∧
    (⟨3, [97, 98, 99], 0⟩ : CharBuffer).Append 100 =
      (false, (⟨3, [97, 98, 99], 0⟩ : CharBuffer)) :=
  ⟨((c9_append_contract ⟨2, [97], 0⟩ 98).2.1 (by decide)).1,
   (c9_append_contract ⟨3, [97, 98, 99], 0⟩ 100).2.2 (by decide)⟩

/-- Claim C10: on a buffer whose unread content begins with a digit run
longer than 3, `ParseUInt8` fails after consuming exactly 4 digits, leaving
the rest of the run unconsumed; the internal 16-bit accumulator never
exceeds 9999 (every value it takes is below 2^16), so the `uint16_t`
reduction never changes any result. -/
theorem c10_digit_overrun :
    (∀ cb : CharBuffer, 3 < (cb.unread.takeWhile isdigit).length →
      cb.ParseUInt8 = (none, cb.advance 4)) ∧
    (∀ cb : CharBuffer, cb.ParseUInt8 = cb.ParseUInt8NoMod) ∧
    (∀ (cb : CharBuffer) (x : Nat), x ∈ cb.parseUInt8Trace → x ≤ 9999) := by
  refine ⟨?_, ?_, ?_⟩
  · intro cb h
    rw [CharBuffer.parseUInt8_spec]
    rw [if_neg (by omega), if_neg (by omega)]
  · exact fun cb => CharBuffer.parseUInt8_eq_noMod cb
  · exact fun cb x hx => CharBuffer.parseUInt8Trace_bound cb x hx

/-- Witness for C10: a five-digit run fails after exactly four digits, and
the largest accumulator value on a four-digit run is 1234 ≤ 9999. -/
theorem c10_witness :
    CharBuffer.ParseUInt8 ⟨8, bytes "12345", 0⟩ = (none, ⟨8, bytes "12345", 4⟩) ∧
    1234 ≤ 9999 :=
  ⟨c10_digit_overrun.1 ⟨8, bytes "12345", 0⟩ (by decide),
   c10_digit_overrun.2.2 ⟨8, bytes "1234", 0⟩ 1234 (by decide)⟩

end POCS

namespace POCS

open SerialInputHandler

/-- A printable line that fits the buffer, followed by a terminator: the
`Handle` loop accumulates the stripped characters, dispatches them as one
complete line, and continues on the remaining input from a fresh state. -/
theorem handle_one_line (n : Nat) (line rest : List Nat) (t : Nat)
    (hall : line.all isprint = true) (ht : IsNewLine t = true)
    (hlen : (strip line).length ≤ n) (hne : strip line ≠ []) :
    SerialInputHandler.Handle (SerialInputHandler.init n) (line ++ t :: rest) =
      ((SerialInputHandler.Handle (SerialInputHandler.init n) rest).1,
       (SerialInputHandler.Handle (SerialInputHandler.init n) rest).2.1,
       dispatch ⟨n, strip line, 0⟩ ::
         (SerialInputHandler.Handle (SerialInputHandler.init n) rest).2.2) := by
  have h1 : 1 ≤ (strip line).length := by
    cases hsl : strip line with
    | nil => exact absurd hsl hne
    | cons a b => simp
  have hfill := accumGo_fill line (SerialInputHandler.init n) (t :: rest) hall rfl
    (by
      simp only [SerialInputHandler.init, CharBuffer.mkEmpty, List.length_nil,
        Nat.zero_add]
      exact hlen)
  have hemp : (setBuf (SerialInputHandler.init n)
      ((SerialInputHandler.init n).input_buffer.buf ++ strip line)).input_buffer.Empty
        = false := by
    simp only [CharBuffer.Empty, setBuf, CharBuffer.write_cursor,
      SerialInputHandler.init, CharBuffer.mkEmpty, List.nil_append]
    simp only [decide_eq_false_iff_not]
    omega
  have hcomp := accumGo_complete (setBuf (SerialInputHandler.init n)
    ((SerialInputHandler.init n).input_buffer.buf ++ strip line)) t rest rfl ht hemp
  have hacc := hfill.trans hcomp
  have hstep := handle_step (SerialInputHandler.init n) (line ++ t :: rest) rest _ rfl hacc
  rw [hstep]
  rfl

/-- Claim C1 counterexample: the complete line `"256a=7"` starts with a
digit and matches neither grammar, yet the name handler is invoked, with
name `"a"` and value 7: Grammar B is attempted after the Grammar-A numeric
parse consumed `"256"` and failed on the value check. -/
theorem c1_counterexample :
    (SerialInputHandler.Handle (SerialInputHandler.init 8)
        (bytes "256a=7" ++ 10 :: [])).2.2 = [Event.nameNum [97] 7] ∧
    isdigit ((bytes "256a=7").headD 0) = true ∧
    specGrammarA (bytes "256a=7") = none ∧
    specGrammarB (bytes "256a=7") = none :=
  ⟨by rfl, by rfl, by rfl, by rfl⟩

/-- Claim C1 amended: the number handler fires exactly on Grammar-A
matches; the name-handler path is attempted whenever the initial numeric
parse fails — including after it consumed digits — so the guarantee that
the name handler fires only on exact Grammar-B matches holds exactly for
lines that do not start with a digit. -/
theorem c1_amended_handler_dispatch :
    ∀ (n : Nat) (l : List Nat) (x y v : Nat) (nm : List Nat),
      (dispatch ⟨n, l, 0⟩ = Event.numNum x y ↔ specGrammarA l = some (x, y)) ∧
      (isdigit (l.headD 0) = false →
        (dispatch ⟨n, l, 0⟩ = Event.nameNum nm v ↔ specGrammarB l = some (nm, v))) :=
  fun n l x y v nm =>
    ⟨dispatch_numNum_iff n l x y, fun h => dispatch_nameNum_iff n l nm v h⟩

/-- Witness for the amended C1 on the line `"ab=7"`. -/
theorem c1_witness :
    isdigit ((bytes "ab=7").headD 0) = false ∧
    (dispatch ⟨8, bytes "ab=7", 0⟩ = Event.nameNum (bytes "ab") 7 ↔
      specGrammarB (bytes "ab=7") = some (bytes "ab", 7)) :=
  ⟨by rfl, (c1_amended_handler_dispatch 8 (bytes "ab=7") 0 0 7 (bytes "ab")).2 (by rfl)⟩

/-- Claim C3: for every sequence of printable characters whose stored
(whitespace-stripped) content fits the buffer, followed by a line
terminator: if that content exactly matches Grammar A or Grammar B, the
corresponding handler is invoked exactly once with the correctly parsed
values, and the buffer is empty immediately afterwards — processing of the
remaining input continues from a fully reset assembler. -/
theorem c3_matched_line_dispatches :
    ∀ (n : Nat) (line rest : List Nat) (t : Nat),
      line.all isprint = true → IsNewLine t = true → (strip line).length ≤ n →
      (∀ x y, specGrammarA (strip line) = some (x, y) →
        SerialInputHandler.Handle (SerialInputHandler.init n) (line ++ t :: rest) =
          ((SerialInputHandler.Handle (SerialInputHandler.init n) rest).1,
           (SerialInputHandler.Handle (SerialInputHandler.init n) rest).2.1,
           Event.numNum x y ::
             (SerialInputHandler.Handle (SerialInputHandler.init n) rest).2.2)) ∧
      (∀ nm v, specGrammarB (strip line) = some (nm, v) →
        SerialInputHandler.Handle (SerialInputHandler.init n) (line ++ t :: rest) =
          ((SerialInputHandler.Handle (SerialInputHandler.init n) rest).1,
           (SerialInputHandler.Handle (SerialInputHandler.init n) rest).2.1,
           Event.nameNum nm v ::
             (SerialInputHandler.Handle (SerialInputHandler.init n) rest).2.2)) := by
  intro n line rest t hall ht hlen
  constructor
  · intro x y hA
    have hne : strip line ≠ [] := by
      intro hnil
      rw [hnil, specGrammarA_nil] at hA
      exact Option.noConfusion hA
    rw [handle_one_line n line rest t hall ht hlen hne]
    rw [(dispatch_numNum_iff n (strip line) x y).mpr hA]
  · intro nm v hB
    have hne : strip line ≠ [] := by
      intro hnil
      rw [hnil, specGrammarB_nil] at hB
      exact Option.noConfusion hB
    have hnd : isdigit ((strip line).headD 0) = false := by
      cases hsl : strip line with
      | nil => exact absurd hsl hne
      | cons c t2 =>
          rw [hsl] at hB
          by_cases hl : islower c = true
          · have hdig : isdigit c = false := by
              simp only [islower, decide_eq_true_eq] at hl
              simp only [isdigit, decide_eq_false_iff_not]
              omega
            simpa using hdig
          · have hlf : islower c = false := by
              cases hx : islower c with
              | false => rfl
              | true => exact absurd hx hl
            rw [specGrammarB_not_lower c t2 hlf] at hB
            exact absurd hB (by simp)
    rw [handle_one_line n line rest t hall ht hlen hne]
    rw [(dispatch_nameNum_iff n (strip line) nm v hnd).mpr hB]

/-- Witness for C3 on the Grammar-A line `"3,45"`. -/
theorem c3_witness :
    SerialInputHandler.Handle (SerialInputHandler.init 8) (bytes "3,45" ++ 10 :: []) =
      ((SerialInputHandler.Handle (SerialInputHandler.init 8) []).1,
       (SerialInputHandler.Handle (SerialInputHandler.init 8) []).2.1,
       Event.numNum 3 45 ::
         (SerialInputHandler.Handle (SerialInputHandler.init 8) []).2.2) :=
  (c3_matched_line_dispatches 8 (bytes "3,45") [] 10 (by rfl) rfl (by decide)).1
    3 45 (by rfl)

/-- Claim C4 counterexample: with N = 4, the line `"5 , 5 "` holds six
printable non-terminator characters — more than N — yet `OnNumberNumber`
IS invoked, because the blanks among them are discarded before any
capacity check, so no `Append` ever fails. -/
theorem c4_counterexample :
    4 < (bytes "5 , 5 ").length ∧
    (bytes "5 , 5 ").all isprint = true ∧
    (SerialInputHandler.Handle (SerialInputHandler.init 4)
        (bytes "5 , 5 " ++ 10 :: [])).2.2 = [Event.numNum 5 5] :=
  ⟨by decide, by rfl, by rfl⟩

/-- Claim C4 amended, counting stored characters: for every line of more
than N printable non-blank characters before the next terminator (CR or
LF), no handler is invoked for that line (the assembler resyncs on the
failing `Append`), and after that terminator the run continues exactly as
if the oversized line had never arrived. -/
theorem c4_oversized_line_discarded :
    ∀ (n : Nat) (cs rest : List Nat) (t : Nat),
      IsNewLine t = true →
      cs.all (fun c => isprint c && !isblank c) = true →
      n < cs.length →
      SerialInputHandler.Handle (SerialInputHandler.init n) (cs ++ t :: rest) =
        SerialInputHandler.Handle (SerialInputHandler.init n) rest := by
  intro n cs rest t ht hall hlen
  apply handle_congr _ _ _ rfl
  have hov := accumGo_overflow cs (SerialInputHandler.init n) rest t ht hall
    (by simp [SerialInputHandler.init, CharBuffer.mkEmpty])
    (Or.inr (by
      simp only [SerialInputHandler.init, CharBuffer.mkEmpty, List.length_nil,
        Nat.zero_add]
      omega))
  exact hov

/-- Witness for the amended C4: a three-character line overflows a
two-character buffer and, with a CR terminator, is discarded without any
event. -/
theorem c4_witness :
    SerialInputHandler.Handle (SerialInputHandler.init 2) (bytes "123" ++ 13 :: []) =
      SerialInputHandler.Handle (SerialInputHandler.init 2) [] :=
  c4_oversized_line_discarded 2 (bytes "123") [] 13 rfl (by decide) (by decide)

end POCS

namespace POCS

/-- Claim C6: every mutating `CharBuffer` operation preserves the cursor
invariant `0 ≤ read_cursor ≤ write_cursor ≤ N` (`Empty` and `Peek` do not
mutate state at all), with the precondition that `Next` — and hence `Peek`,
which reads the same cell without advancing — is only called when the
buffer is not `Empty`. -/
theorem c6_cursor_invariant :
    ∀ (cb : CharBuffer) (c : Nat),
      cursorInv cb →
      (cursorInv cb.Reset ∧
       cursorInv (cb.Append c).2 ∧
       (cb.Empty = false → cursorInv (cb.Next).2) ∧
       cursorInv (cb.ParseUInt8).2 ∧
       cursorInv (cb.ParseName).2 ∧
       cursorInv (cb.MatchAndConsume c).2) := by
  intro cb c hinv
  obtain ⟨hrw, hwk⟩ := hinv
  have hun : cb.unread.length = cb.write_cursor - cb.read_cursor :=
    CharBuffer.unread_length cb
  refine ⟨?_, ?_, ?_, ?_, ?_, ?_⟩
  · exact ⟨Nat.le_refl 0, Nat.zero_le _⟩
  · rw [CharBuffer.Append]
    split_ifs with h
    · refine ⟨?_, ?_⟩
      · show cb.read_cursor ≤ (cb.buf ++ [c]).length
        rw [CharBuffer.write_cursor] at hrw
        simp only [List.length_append, List.length_cons, List.length_nil]
        omega
      · show (cb.buf ++ [c]).length ≤ cb.kBufferSize
        rw [CharBuffer.write_cursor] at h
        simp only [List.length_append, List.length_cons, List.length_nil]
        omega
    · exact ⟨hrw, hwk⟩
  · intro he
    refine ⟨?_, hwk⟩
    show cb.read_cursor + 1 ≤ cb.write_cursor
    simp only [CharBuffer.Empty, decide_eq_false_iff_not, Nat.not_le] at he
    omega
  · rw [CharBuffer.parseUInt8_spec]
    have hr : (cb.unread.takeWhile isdigit).length ≤ cb.unread.length :=
      length_takeWhile_le_self _ _
    split_ifs with h0 h3 hb
    · exact ⟨hrw, hwk⟩
    · refine ⟨?_, hwk⟩
      show cb.read_cursor + (cb.unread.takeWhile isdigit).length ≤ cb.write_cursor
      omega
    · refine ⟨?_, hwk⟩
      show cb.read_cursor + (cb.unread.takeWhile isdigit).length ≤ cb.write_cursor
      omega
    · refine ⟨?_, hwk⟩
      show cb.read_cursor + 4 ≤ cb.write_cursor
      omega
  · cases hu : cb.unread with
    | nil =>
        rw [CharBuffer.parseName_none_nil cb hu]
        exact ⟨hrw, hwk⟩
    | cons d t2 =>
        by_cases hl : islower d = true
        · rw [CharBuffer.parseName_some cb d t2 hu hl]
          refine ⟨?_, hwk⟩
          show cb.read_cursor + (1 + (t2.takeWhile CharBuffer.identChar).length) ≤
            cb.write_cursor
          have h2 : (t2.takeWhile CharBuffer.identChar).length ≤ t2.length :=
            length_takeWhile_le_self _ _
          have h3 : cb.unread.length = t2.length + 1 := by rw [hu]; simp
          omega
        · have hlf : islower d = false := by
            cases hx : islower d with
            | false => rfl
            | true => exact absurd hx hl
          rw [CharBuffer.parseName_none_notLower cb d t2 hu hlf]
          exact ⟨hrw, hwk⟩
  · cases hu : cb.unread with
    | nil =>
        rw [CharBuffer.matchAndConsume_nil cb c hu]
        exact ⟨hrw, hwk⟩
    | cons d t2 =>
        by_cases hc : c = d
        · subst hc
          rw [CharBuffer.matchAndConsume_eq cb c t2 hu]
          refine ⟨?_, hwk⟩
          show cb.read_cursor + 1 ≤ cb.write_cursor
          have h3 : cb.unread.length = t2.length + 1 := by rw [hu]; simp
          omega
        · rw [CharBuffer.matchAndConsume_ne cb d t2 c hu hc]
          exact ⟨hrw, hwk⟩

/-- Witness for C6 on the buffer `⟨4, "ab", 1⟩`. -/
theorem c6_witness :
    cursorInv ((⟨4, bytes "ab", 1⟩ : CharBuffer).Reset) ∧
    cursorInv (((⟨4, bytes "ab", 1⟩ : CharBuffer).Append 99).2) ∧
    cursorInv (((⟨4, bytes "ab", 1⟩ : CharBuffer).Next).2) ∧
    cursorInv (((⟨4, bytes "ab", 1⟩ : CharBuffer).ParseUInt8).2) ∧
    cursorInv (((⟨4, bytes "ab", 1⟩ : CharBuffer).ParseName).2) ∧
    cursorInv (((⟨4, bytes "ab", 1⟩ : CharBuffer).MatchAndConsume 99).2) := by
  have h := c6_cursor_invariant ⟨4, bytes "ab", 1⟩ 99 (by constructor <;> decide)
  exact ⟨h.1, h.2.1, h.2.2.1 (by decide), h.2.2.2.1, h.2.2.2.2.1, h.2.2.2.2.2⟩

end POCS
